import Mathlib

/-!
Verification of the block/markup engine of the `prompt` repository.

The repository contains two revisions of the same route module:
`src/frontend/app/routes/home.tsx` (which contains `escapeXml`, `buildXml`
and `parseXmlToBlocks`) and `src/unnamed/part_000` (a later revision of the
same module containing `escapeXml`, `escapeXmlContent` and `buildXml`; its
parser was removed together with the import UI).  Both serializers are
embedded below: `Home.buildXml` escapes element content with the full
five-entity `escapeXml`, `Part000.buildXml` escapes element content with
`escapeXmlContent` (only the ampersand).  The parser `parseXmlToBlocks`
exists only in `home.tsx` and is embedded once.

JavaScript strings are modelled as Lean `String`; the JS string primitives
used by the source (`replaceAll` with a one-character pattern, `trim`,
`split("\n")`) are modelled explicitly below.  The browser's
`DOMParser.parseFromString(_, "text/xml")` is modelled by the executable
strict-XML parser `domParse`: a recursive-descent parser producing an
element tree, returning a parse-error message (the `parsererror` document)
on malformed input.  `domParse` accepts the element/attribute/text/entity
fragment of XML relevant to this engine; XML declarations, comments,
DOCTYPEs and CDATA sections are rejected (none of the verified claims
exercise them).  Element trees use a node/forest pair of inductives so that
all functions on them are structurally recursive and kernel-reducible.

The `id` fields of the source's `Block` and attribute records are freshly
generated random identifiers (`uid()`); they carry no information relevant
to the serializer/parser contract and are omitted from the embedding, as is
the optional UI field `collapsed`.
-/

/-- A single quote character, written via its code point. -/
def squote : Char := Char.ofNat 39

/-- The set of characters trimmed by JavaScript `String.prototype.trim`
(WhiteSpace and LineTerminator code points). -/
def jsWsChar (c : Char) : Bool :=
  c = ' ' || c = '\t' || c = '\n' || c = '\r' ||
  c = Char.ofNat 0x0B || c = Char.ofNat 0x0C ||
  c = Char.ofNat 0xA0 || c = Char.ofNat 0x1680 ||
  (0x2000 ≤ c.toNat && c.toNat ≤ 0x200A) ||
  c = Char.ofNat 0x2028 || c = Char.ofNat 0x2029 ||
  c = Char.ofNat 0x202F || c = Char.ofNat 0x205F ||
  c = Char.ofNat 0x3000 || c = Char.ofNat 0xFEFF

/-- Model of JavaScript `String.prototype.trim`. -/
def jsTrim (s : String) : String :=
  ⟨((s.data.dropWhile jsWsChar).reverse.dropWhile jsWsChar).reverse⟩

/-- Split a character list at every occurrence of the separator character. -/
def splitCharList (sep : Char) : List Char → List (List Char)
  | [] => [[]]
  | c :: cs =>
    if c = sep then [] :: splitCharList sep cs
    else
      match splitCharList sep cs with
      | h :: t => (c :: h) :: t
      | [] => [[c]]

/-- Model of JavaScript `String.prototype.split` with a one-character
separator (the source only ever splits on `"\n"`). -/
def jsSplit (s : String) (sep : Char) : List String :=
  (splitCharList sep s.data).map String.mk

/-- Model of JavaScript `String.prototype.replaceAll` with a one-character
pattern: every occurrence of that character is replaced by `rep` (leftmost
non-overlapping replacement is character-by-character replacement for a
one-character pattern).  The source only calls `replaceAll` with
one-character patterns. -/
def replaceAllChar (s : String) (p : Char) (rep : String) : String :=
  ⟨s.data.flatMap (fun c => if c = p then rep.data else [c])⟩

/-- `" ".repeat(n)`. -/
def spaces (n : Nat) : String := ⟨List.replicate n ' '⟩

/-- Join character lists with a one-character separator between successive
entries. -/
def jsJoinData (sep : Char) : List (List Char) → List Char
  | [] => []
  | [x] => x
  | x :: y :: rest => x ++ sep :: jsJoinData sep (y :: rest)

/-- Model of JavaScript `Array.prototype.join` with a one-character
separator (the source joins lines with `"\n"` and attribute fragments with
`" "`). -/
def jsJoin (parts : List String) (sep : Char) : String :=
  ⟨jsJoinData sep (parts.map String.data)⟩

/-- `type XmlAttr = { id; name: string; value: string }` (the random `id`
is omitted, see the module docstring). -/
structure XmlAttr where
  name : String
  value : String
  deriving DecidableEq, Repr

/-- `type Block = { id; tag: string; content: string; attrs: XmlAttr[] }`
(the random `id` and the UI field `collapsed` are omitted). -/
structure Block where
  tag : String
  content : String
  attrs : List XmlAttr
  deriving DecidableEq, Repr

/-- The serializer's option object `{ indent?: number }`. -/
structure BuildOpts where
  indent : Option Int
  deriving DecidableEq, Repr

/-- `escapeXml` (identical in both revisions): five `replaceAll`
substitutions applied in order, the ampersand first. -/
def escapeXml (text : String) : String :=
  replaceAllChar
    (replaceAllChar
      (replaceAllChar
        (replaceAllChar
          (replaceAllChar text '&' "&amp;")
          '<' "&lt;")
        '>' "&gt;")
      '"' "&quot;")
    squote "&apos;"

/-- `escapeXmlContent` (revision `src/unnamed/part_000` only): escapes only
the ampersand; `<` and `>` are intentionally left verbatim. -/
def escapeXmlContent (text : String) : String :=
  replaceAllChar text '&' "&amp;"

/-- `renderAttrs` (identical in both revisions of `buildXml`): drop
attributes whose trimmed name is empty, render the rest as
`name="escaped value"` joined by single spaces. -/
def renderAttrs (attrs : List XmlAttr) : String :=
  jsJoin
    ((attrs.filter (fun a => jsTrim a.name ≠ "")).map
      (fun a => a.name ++ "=\"" ++ escapeXml a.value ++ "\""))
    ' '

/-- The lines pushed by `renderBlock` for one block, parameterised by the
content-escaping function (the only difference between the two revisions
of `buildXml`). -/
def renderBlockLines (contentEsc : String → String) (indentSize : Nat)
    (b : Block) (level : Nat) : List String :=
  let attrsStr := renderAttrs b.attrs
  let hasContent := jsTrim b.content ≠ ""
  let openTag :=
    if attrsStr = "" then "<" ++ b.tag ++ ">"
    else "<" ++ b.tag ++ " " ++ attrsStr ++ ">"
  [spaces (level * indentSize) ++ openTag] ++
    (if hasContent then
      (jsSplit b.content '\n').map
        (fun ln => spaces ((level + 1) * indentSize) ++ contentEsc ln)
    else []) ++
    [spaces (level * indentSize) ++ "</" ++ b.tag ++ ">"]

/-- `buildXml`, parameterised by the content-escaping function: clamp the
indent to `[0, 8]`, render every block at level 0, join all emitted lines
with newlines. -/
def buildXmlCore (contentEsc : String → String) (blocks : List Block)
    (opts : BuildOpts) : String :=
  let indentSize : Nat := (max 0 (min 8 (opts.indent.getD 2))).toNat
  jsJoin (blocks.flatMap (fun b => renderBlockLines contentEsc indentSize b 0)) '\n'

namespace Home

/-- `buildXml` from `src/frontend/app/routes/home.tsx`: element content
lines go through the full `escapeXml`. -/
def buildXml (blocks : List Block) (opts : BuildOpts) : String :=
  buildXmlCore escapeXml blocks opts

end Home

namespace Part000

/-- `buildXml` from `src/unnamed/part_000`: element content lines go
through `escapeXmlContent`. -/
def buildXml (blocks : List Block) (opts : BuildOpts) : String :=
  buildXmlCore escapeXmlContent blocks opts

end Part000

/-! ## Model of `DOMParser.parseFromString(_, "text/xml")`

A strict XML parser over the element/attribute/text/entity fragment.
Input line endings are normalised (`\r\n` and `\r` become `\n`) and
attribute values are whitespace-normalised, as prescribed by the XML
specification and implemented by browsers.  Parsed trees are represented
by the mutual inductives `XNode`/`XForest` so that every tree function is
structurally recursive.  Recursive scanners take an explicit fuel
argument; every call site supplies fuel that provably dominates the
number of recursion steps, so fuel exhaustion is unreachable there. -/

mutual
/-- A DOM node of the parsed document: element or text. -/
inductive XNode where
  | text (s : String)
  | elem (tag : String) (attrs : List XmlAttr) (children : XForest)
  deriving DecidableEq, Repr
/-- A list of sibling DOM nodes. -/
inductive XForest where
  | nil
  | cons (hd : XNode) (tl : XForest)
  deriving DecidableEq, Repr
end

/-- Convert a forest of siblings to a list. -/
def XForest.toList : XForest → List XNode
  | .nil => []
  | .cons n t => n :: t.toList

mutual
/-- `Node.textContent` of an element: the concatenation of all descendant
text, in document order. -/
def textContent : XNode → String
  | .text s => s
  | .elem _ _ kids => textContentF kids
/-- `textContent` of a forest of siblings. -/
def textContentF : XForest → String
  | .nil => ""
  | .cons n t => textContent n ++ textContentF t
end

mutual
/-- The first descendant-or-self element with the given tag name, in
document order (`document.getElementsByTagName(tag)[0]`). -/
def findElem (tag : String) : XNode → Option XNode
  | .text _ => none
  | .elem t a kids =>
    if t = tag then some (.elem t a kids) else findElemF tag kids
/-- `findElem` over a forest of siblings. -/
def findElemF (tag : String) : XForest → Option XNode
  | .nil => none
  | .cons n t =>
    match findElem tag n with
    | some e => some e
    | none => findElemF tag t
end

/-- Is a node an element (`nodeType === 1`)? -/
def isElem : XNode → Bool
  | .elem _ _ _ => true
  | .text _ => false

/-- `tagName` of a node (text nodes have none; the empty string stands in,
and is never consulted on a text node by the embedded code). -/
def tagOf : XNode → String
  | .elem t _ _ => t
  | .text _ => ""

/-- The attribute list of a node (`Array.from(el.attributes)`, document
order). -/
def attrsOf : XNode → List XmlAttr
  | .elem _ a _ => a
  | .text _ => []

/-- The direct element children of a node
(`Array.from(el.childNodes).filter(n => n.nodeType === 1)`). -/
def elemChildren : XNode → List XNode
  | .elem _ _ kids => kids.toList.filter isElem
  | .text _ => []

/-- XML whitespace (the `S` production). -/
def isXmlWs (c : Char) : Bool :=
  c = ' ' || c = '\t' || c = '\n' || c = '\r'

/-- May a character start an XML name?  (ASCII letters and underscore; the
colon is excluded because an undeclared namespace prefix is an error in
browsers' strict XML mode.) -/
def isNameStart (c : Char) : Bool :=
  c.isAlpha || c = '_'

/-- May a character continue an XML name? -/
def isNameChar (c : Char) : Bool :=
  isNameStart c || c.isDigit || c = '-' || c = '.'

/-- Normalise line endings as XML parsers do before parsing:
`\r\n` and a lone `\r` both become `\n`. -/
def normNewlines : List Char → List Char
  | [] => []
  | [c] => if c = '\r' then ['\n'] else [c]
  | c :: d :: rest =>
    if c = '\r' then
      if d = '\n' then '\n' :: normNewlines rest
      else '\n' :: normNewlines (d :: rest)
    else c :: normNewlines (d :: rest)

/-- Is a code point an XML character that may appear literally in content
(after line-ending normalisation, so `\r` no longer occurs)? -/
def isXmlTextChar (c : Char) : Bool :=
  0x20 ≤ c.toNat || c = '\t' || c = '\n'

/-- The character denoted by an entity reference body (the part between
`&` and `;`): one of the five named entities, or a decimal or hexadecimal
character reference denoting a valid XML character. -/
def entityVal (nm : List Char) : Option Char :=
  if nm = "amp".data then some '&'
  else if nm = "lt".data then some '<'
  else if nm = "gt".data then some '>'
  else if nm = "quot".data then some '"'
  else if nm = "apos".data then some squote
  else
    match nm with
    | '#' :: 'x' :: ds =>
      if ds ≠ [] && ds.all (fun c => c.isDigit || ('a' ≤ c && c ≤ 'f') || ('A' ≤ c && c ≤ 'F')) then
        let v := ds.foldl (fun acc c =>
          16 * acc + (if c.isDigit then c.toNat - 48
                      else if 'a' ≤ c then c.toNat - 87 else c.toNat - 55)) 0
        if v < 0x110000 && ¬(0xD800 ≤ v && v ≤ 0xDFFF) && isXmlTextChar (Char.ofNat v) then
          some (Char.ofNat v)
        else none
      else none
    | '#' :: ds =>
      if ds ≠ [] && ds.all Char.isDigit then
        let v := ds.foldl (fun acc c => 10 * acc + (c.toNat - 48)) 0
        if v < 0x110000 && ¬(0xD800 ≤ v && v ≤ 0xDFFF) && isXmlTextChar (Char.ofNat v) then
          some (Char.ofNat v)
        else none
      else none
    | _ => none

/-- Decode the entity references of a raw character-data run.  A bare `&`
that does not begin a well-formed entity reference is a fatal error, as are
literal control characters forbidden by XML.  One unit of fuel is spent per
decoded character, so `fuel ≥ input.length` always suffices. -/
def decodeEntities : Nat → List Char → Except String (List Char)
  | _, [] => .ok []
  | 0, _ :: _ => .error "entity decoding fuel exhausted"
  | fuel + 1, c :: rest =>
    if c = '&' then
      let nm := rest.takeWhile (· != ';')
      if nm.length < rest.length then
        match entityVal nm with
        | some ch =>
          match decodeEntities fuel (rest.drop (nm.length + 1)) with
          | .ok tail => .ok (ch :: tail)
          | .error e => .error e
        | none => .error "invalid entity reference"
      else .error "unterminated entity reference"
    else if isXmlTextChar c then
      match decodeEntities fuel rest with
      | .ok tail => .ok (c :: tail)
      | .error e => .error e
    else .error "invalid character in document"

/-- Scan an XML name at the head of the input. -/
def scanName : List Char → Except String (String × List Char)
  | [] => .error "expected a name"
  | c :: cs =>
    if isNameStart c then
      .ok (⟨c :: cs.takeWhile isNameChar⟩, cs.dropWhile isNameChar)
    else .error "expected a name"

/-- Literal tab and newline characters inside an attribute value are
normalised to spaces (XML attribute-value normalisation; character
references are exempt because `decodeEntities` runs afterwards). -/
def nrmAttrWs (c : Char) : Char :=
  if c = '\t' || c = '\n' then ' ' else c

/-- Scan a run of attributes `name="value"`, stopping before `>` or `/>`.
One unit of fuel is spent per attribute, so `fuel ≥ #attributes + 1`
suffices. -/
def scanAttrs : Nat → List Char → Except String (List XmlAttr × List Char)
  | 0, _ => .error "attribute scanning fuel exhausted"
  | fuel + 1, l =>
    match l.dropWhile isXmlWs with
    | [] => .ok ([], [])
    | c :: cs =>
      if isNameStart c then
        match cs.dropWhile isNameChar with
        | '=' :: q :: r4 =>
          if q = '"' || q = squote then
            let chunk := r4.takeWhile (· != q)
            match r4.dropWhile (· != q) with
            | _ :: r5 =>
              if chunk.contains '<' then .error "attribute value contains a raw angle bracket"
              else
                match decodeEntities (chunk.length + 1) (chunk.map nrmAttrWs) with
                | .ok v =>
                  match scanAttrs fuel r5 with
                  | .ok (attrs, rest) =>
                    .ok ({ name := ⟨c :: cs.takeWhile isNameChar⟩, value := ⟨v⟩ } :: attrs, rest)
                  | .error e => .error e
                | .error e => .error e
            | [] => .error "unterminated attribute value"
          else .error "expected a quoted attribute value"
        | _ => .error "expected = after attribute name"
      else .ok ([], c :: cs)

mutual
/-- Parse one element starting at `<`.  Fuel bounds the recursion depth of
the element/children mutual recursion. -/
def parseElement : Nat → List Char → Except String (XNode × List Char)
  | 0, _ => .error "parser fuel exhausted"
  | fuel + 1, l =>
    match l with
    | '<' :: r0 =>
      match scanName r0 with
      | .ok (tag, r1) =>
        match scanAttrs (r1.length + 1) r1 with
        | .ok (attrs, r2) =>
          if (attrs.map XmlAttr.name).Nodup then
            match r2 with
            | '/' :: '>' :: r3 => .ok (.elem tag attrs .nil, r3)
            | '>' :: r3 =>
              match parseChildren fuel r3 with
              | .ok (kids, r4) =>
                match r4 with
                | '<' :: '/' :: r5 =>
                  match scanName r5 with
                  | .ok (ctag, r6) =>
                    if ctag = tag then
                      match r6.dropWhile isXmlWs with
                      | '>' :: r7 => .ok (.elem tag attrs kids, r7)
                      | _ => .error "malformed closing tag"
                    else .error ("mismatched closing tag " ++ ctag ++ " for " ++ tag)
                  | .error e => .error e
                | _ => .error "expected a closing tag"
              | .error e => .error e
            | _ => .error "malformed start tag"
          else .error "duplicate attribute name"
        | .error e => .error e
      | .error e => .error e
    | _ => .error "expected an element"
/-- Parse the children of an element: interleaved character data and child
elements, stopping before the parent's closing tag `</`. -/
def parseChildren : Nat → List Char → Except String (XForest × List Char)
  | 0, _ => .error "parser fuel exhausted"
  | fuel + 1, l =>
    match l with
    | [] => .error "unexpected end of input inside an element"
    | '<' :: '/' :: _ => .ok (.nil, l)
    | '<' :: _ =>
      match parseElement fuel l with
      | .ok (node, r1) =>
        match parseChildren fuel r1 with
        | .ok (nodes, r2) => .ok (.cons node nodes, r2)
        | .error e => .error e
      | .error e => .error e
    | _ =>
      let chunk := l.takeWhile (· != '<')
      match decodeEntities (chunk.length + 1) chunk with
      | .ok s =>
        match parseChildren fuel (l.dropWhile (· != '<')) with
        | .ok (nodes, r2) => .ok (.cons (.text ⟨s⟩) nodes, r2)
        | .error e => .error e
      | .error e => .error e
end

/-- Model of `new DOMParser().parseFromString(xml, "text/xml")`:
`.ok tree` is a successfully parsed document with root element `tree`;
`.error msg` is the browser's error document, whose `parsererror` element
has text content `msg` (always non-empty). -/
def domParse (s : String) : Except String XNode :=
  let l := (normNewlines s.data).dropWhile isXmlWs
  match parseElement (2 * l.length + 2) l with
  | .ok (root, rest) =>
    if rest.dropWhile isXmlWs = [] then .ok root
    else .error "junk after document element"
  | .error e => .error e

/-! ## `parseXmlToBlocks` (from `src/frontend/app/routes/home.tsx`) -/

/-- The result object of `parseXmlToBlocks`:
`{ root?: string; blocks: Block[]; wrapped?: boolean; error?: string }`.
The error path of the source returns an object without the `root` and
`wrapped` properties, hence the `Option Bool` for `wrapped`. -/
structure ParseResult where
  root : Option String
  blocks : List Block
  wrapped : Option Bool
  error : Option String
  deriving DecidableEq, Repr

/-- The synthetic wrapper: `` `<x-root>\n${xml}\n</x-root>` ``. -/
def wrapFallback (xml : String) : String :=
  "<x-root>\n" ++ xml ++ "\n</x-root>"

/-- `doc.getElementsByTagName("parsererror")[0]` is truthy: either the
browser produced an error document (our `.error` case), or the parsed
document itself contains a `parsererror` element. -/
def perrOf (doc : Except String XNode) : Bool :=
  match doc with
  | .error _ => true
  | .ok t => (findElem "parsererror" t).isSome

/-- Lines 69-81 of `parseXmlToBlocks`: the first parse attempt, the
fallback re-parse with the synthetic wrapper when a `parsererror` marker
was found, and the final `parsererror` check.  Returns the usable document
together with the `wrapped` flag, or the reported error message
(`err.textContent || "XML parse error"`). -/
def parseStage1 (xml : String) : Except String (XNode × Bool) :=
  let doc1 := domParse xml
  let wrapped := perrOf doc1
  let doc := if wrapped then domParse (wrapFallback xml) else doc1
  match doc with
  | .error e => .error (if e = "" then "XML parse error" else e)
  | .ok t =>
    match findElem "parsererror" t with
    | some pe =>
      .error (if textContent pe = "" then "XML parse error" else textContent pe)
    | none => .ok (t, wrapped)

/-- Lines 82-96 of `parseXmlToBlocks`: select the target elements (the
root's element children when it has any, otherwise the root itself), map
them to blocks, and compute the retained root name. -/
def blocksStage2 (t : XNode) (wrapped : Bool) : ParseResult :=
  let children := elemChildren t
  let hasElementChildren := !children.isEmpty
  let targetEls := if hasElementChildren then children else [t]
  let blocks := targetEls.map (fun el =>
    { tag := tagOf el
      content := jsTrim (textContent el)
      attrs := attrsOf el : Block })
  let rootName := if ¬wrapped ∧ hasElementChildren then some (tagOf t) else none
  { root := rootName, blocks := blocks, wrapped := some wrapped, error := none }

/-- `parseXmlToBlocks` from `src/frontend/app/routes/home.tsx`. -/
def parseXmlToBlocks (xml : String) : ParseResult :=
  match parseStage1 xml with
  | .error msg => { root := none, blocks := [], wrapped := none, error := some msg }
  | .ok (t, wrapped) => blocksStage2 t wrapped

/-! ## Characterisation of the escapers -/

/-- The per-character expansion that `escapeXml` effects: each of the five
special characters becomes its entity, every other character is kept. -/
def escXmlCharExpansion (c : Char) : List Char :=
  if c = '&' then "&amp;".data
  else if c = '<' then "&lt;".data
  else if c = '>' then "&gt;".data
  else if c = '"' then "&quot;".data
  else if c = squote then "&apos;".data
  else [c]

theorem replaceAllChar_data (s : String) (p : Char) (rep : String) :
    (replaceAllChar s p rep).data =
      s.data.flatMap (fun c => if c = p then rep.data else [c]) := rfl

theorem escapeXml_data (s : String) :
    (escapeXml s).data = s.data.flatMap escXmlCharExpansion := by
  show ((((s.data.flatMap _).flatMap _).flatMap _).flatMap _).flatMap _ = _
  rw [List.flatMap_assoc, List.flatMap_assoc, List.flatMap_assoc, List.flatMap_assoc]
  apply List.flatMap_congr
  intro c _
  by_cases h1 : c = '&'
  · subst h1; rfl
  by_cases h2 : c = '<'
  · subst h2; simp [h1]; rfl
  by_cases h3 : c = '>'
  · subst h3; simp [h1, h2]; rfl
  by_cases h4 : c = '"'
  · subst h4; simp [h1, h2, h3]; rfl
  by_cases h5 : c = squote
  · subst h5; simp [h1, h2, h3, h4]; rfl
  · simp [escXmlCharExpansion, h1, h2, h3, h4, h5]

theorem mk_data (s : String) : String.mk s.data = s := rfl

theorem escapeXmlContent_data (s : String) :
    (escapeXmlContent s).data =
      s.data.flatMap (fun c => if c = '&' then "&amp;".data else [c]) := rfl

theorem escapeXmlContent_of_no_amp (s : String) (h : '&' ∉ s.data) :
    escapeXmlContent s = s := by
  have : (escapeXmlContent s).data = s.data := by
    rw [escapeXmlContent_data]
    calc s.data.flatMap (fun c => if c = '&' then "&amp;".data else [c])
        = s.data.flatMap (fun c => [c]) := by
          apply List.flatMap_congr
          intro c hc
          have : c ≠ '&' := fun e => h (e ▸ hc)
          simp [this]
      _ = s.data := List.flatMap_singleton' s.data
  exact congrArg String.mk this

/-- C1 — Escaping asymmetry of the serializer (revision `part_000`, the one
that contains `escapeXmlContent`): element content lines are escaped under
the element-content policy — only `&` is expanded, `<` and `>` stay
verbatim — while attribute values go through the five-entity attribute
policy, so the same string `<b>` appears verbatim in content but as
`&lt;b&gt;` in an attribute value. -/
theorem escaping_asymmetry :
    (∀ s : String,
      (escapeXmlContent s).data =
        s.data.flatMap (fun c => if c = '&' then "&amp;".data else [c])) ∧
    (∀ s : String, '&' ∉ s.data → escapeXmlContent s = s) ∧
    escapeXmlContent "<b>" = "<b>" ∧
    escapeXml "<b>" = "&lt;b&gt;" ∧
    Part000.buildXml
        [{ tag := "note", content := "<b>", attrs := [{ name := "a", value := "<b>" }] }]
        { indent := some 2 } =
      "<note a=\"&lt;b&gt;\">\n  <b>\n</note>" :=
  ⟨escapeXmlContent_data, escapeXmlContent_of_no_amp, rfl, rfl, rfl⟩

/-- C1 witness: the hypothesis of the second conjunct discharged at the
concrete string `<b>`. -/
theorem escaping_asymmetry_witness :
    ('&' ∉ "<b>".data) ∧ escapeXmlContent "<b>" = "<b>" :=
  ⟨by decide, escaping_asymmetry.2.1 "<b>" (by decide)⟩

/-- C8 — Attribute-value escaping order: the five substitutions
`&`→`&amp;`, `<`→`&lt;`, `>`→`&gt;`, `"`→`&quot;`, `'`→`&apos;` are applied
in exactly that order (this is the definition of `escapeXml`), and because
the ampersand pass runs first, the net effect is a single per-character
expansion — the ampersands introduced by the four later substitutions are
never double-escaped.  Running the ampersand pass after the others instead
would double-escape them, as the last two conjuncts illustrate. -/
theorem escapeXml_order :
    (∀ text : String,
      escapeXml text =
        replaceAllChar
          (replaceAllChar
            (replaceAllChar
              (replaceAllChar
                (replaceAllChar text '&' "&amp;")
                '<' "&lt;")
              '>' "&gt;")
            '"' "&quot;")
          squote "&apos;") ∧
    (∀ s : String, (escapeXml s).data = s.data.flatMap escXmlCharExpansion) ∧
    escapeXml "<" = "&lt;" ∧
    escapeXml "&" = "&amp;" ∧
    replaceAllChar (replaceAllChar "<" '<' "&lt;") '&' "&amp;" = "&amp;lt;" ∧
    replaceAllChar (replaceAllChar "&" '&' "&amp;") '&' "&amp;" = "&amp;amp;" :=
  ⟨fun _ => rfl, escapeXml_data, rfl, rfl, rfl, rfl⟩

theorem buildXmlCore_clamp (esc : String → String) (blocks : List Block)
    (m n : Int) (h : max 0 (min 8 m) = max 0 (min 8 n)) :
    buildXmlCore esc blocks { indent := some m } =
      buildXmlCore esc blocks { indent := some n } := by
  simp only [buildXmlCore, Option.getD]
  rw [h]

/-- C6 — Indent clamping: both serializers clamp `indentWidth` to `[0, 8]`
before use; `-3` behaves exactly like `0` and `99` exactly like `8`, with
no error channel, and in general any indent behaves like its clamp. -/
theorem indentWidth_clamped :
    ∀ blocks : List Block,
      Home.buildXml blocks { indent := some (-3) } =
          Home.buildXml blocks { indent := some 0 } ∧
      Home.buildXml blocks { indent := some 99 } =
          Home.buildXml blocks { indent := some 8 } ∧
      Part000.buildXml blocks { indent := some (-3) } =
          Part000.buildXml blocks { indent := some 0 } ∧
      Part000.buildXml blocks { indent := some 99 } =
          Part000.buildXml blocks { indent := some 8 } ∧
      (∀ n : Int,
        Home.buildXml blocks { indent := some n } =
          Home.buildXml blocks { indent := some (max 0 (min 8 n)) }) :=
  fun blocks =>
    ⟨buildXmlCore_clamp _ _ _ _ (by decide),
     buildXmlCore_clamp _ _ _ _ (by decide),
     buildXmlCore_clamp _ _ _ _ (by decide),
     buildXmlCore_clamp _ _ _ _ (by decide),
     fun n => buildXmlCore_clamp _ _ _ _ (by omega)⟩

/-- Remove from a block every attribute whose trimmed name is empty. -/
def dropEmptyNameAttrs (b : Block) : Block :=
  { b with attrs := b.attrs.filter (fun a => jsTrim a.name ≠ "") }

theorem renderAttrs_filter (attrs : List XmlAttr) :
    renderAttrs (attrs.filter (fun a => jsTrim a.name ≠ "")) = renderAttrs attrs := by
  simp only [renderAttrs, List.filter_filter, Bool.and_self]

theorem renderBlockLines_dropEmpty (esc : String → String) (k : Nat) (b : Block)
    (level : Nat) :
    renderBlockLines esc k (dropEmptyNameAttrs b) level = renderBlockLines esc k b level := by
  simp only [renderBlockLines, dropEmptyNameAttrs, renderAttrs_filter]

theorem buildXmlCore_dropEmpty (esc : String → String) (blocks : List Block)
    (opts : BuildOpts) :
    buildXmlCore esc (blocks.map dropEmptyNameAttrs) opts = buildXmlCore esc blocks opts := by
  simp only [buildXmlCore]
  congr 1
  rw [List.flatMap_map]
  exact List.flatMap_congr fun b _ => renderBlockLines_dropEmpty esc _ b 0

/-- C7 — Attribute filtering and order: both serializers drop every
attribute whose name trims to empty — removing such attributes from the
blocks never changes the output, whatever their values — and the remaining
attributes are rendered as `name="escaped value"` fragments joined by
single spaces in their original order. -/
theorem attribute_filtering_and_order :
    (∀ (blocks : List Block) (opts : BuildOpts),
      Home.buildXml (blocks.map dropEmptyNameAttrs) opts = Home.buildXml blocks opts) ∧
    (∀ (blocks : List Block) (opts : BuildOpts),
      Part000.buildXml (blocks.map dropEmptyNameAttrs) opts = Part000.buildXml blocks opts) ∧
    (∀ attrs : List XmlAttr, (∀ a ∈ attrs, jsTrim a.name ≠ "") →
      renderAttrs attrs =
        jsJoin (attrs.map (fun a => a.name ++ "=\"" ++ escapeXml a.value ++ "\"")) ' ') ∧
    renderAttrs [{ name := "", value := "secret" }] = "" ∧
    renderAttrs [{ name := "   ", value := "secret" }] = "" ∧
    renderAttrs [{ name := "b", value := "2" }, { name := "a", value := "1" }] =
      "b=\"2\" a=\"1\"" := by
  refine ⟨fun blocks opts => buildXmlCore_dropEmpty _ blocks opts,
          fun blocks opts => buildXmlCore_dropEmpty _ blocks opts,
          fun attrs h => ?_, rfl, rfl, rfl⟩
  unfold renderAttrs
  rw [List.filter_eq_self.mpr]
  intro a ha
  simpa using h a ha

/-- C7 witness: the hypothesis of the third conjunct discharged at a
concrete attribute list. -/
theorem attribute_filtering_and_order_witness :
    (∀ a ∈ [({ name := "k", value := "v" } : XmlAttr)], jsTrim a.name ≠ "") ∧
    renderAttrs [({ name := "k", value := "v" } : XmlAttr)] =
      jsJoin
        ([({ name := "k", value := "v" } : XmlAttr)].map
          (fun a => a.name ++ "=\"" ++ escapeXml a.value ++ "\"")) ' ' :=
  ⟨by decide, attribute_filtering_and_order.2.2.1 _ (by decide)⟩

/-! ## Parser claims -/

theorem fallback_msg_ne (x : String) :
    (if x = "" then "XML parse error" else x) ≠ "" := by
  split
  · decide
  · assumption

theorem parseStage1_error_ne (xml m : String) (h : parseStage1 xml = .error m) :
    m ≠ "" := by
  simp only [parseStage1] at h
  split at h
  · exact Except.error.inj h ▸ fallback_msg_ne _
  · split at h
    · exact Except.error.inj h ▸ fallback_msg_ne _
    · exact absurd h (by simp)

/-- C3 — Parse is all-or-nothing: for every input string, `parse` either
fully succeeds (no error) or fully fails (empty block list together with a
non-empty error string); in particular the mismatched-tag input
`<a><b></a>` yields no blocks and a non-empty error. -/
theorem parse_all_or_nothing :
    (∀ xml : String,
      (parseXmlToBlocks xml).error = none ∨
      ((parseXmlToBlocks xml).blocks = [] ∧
        ∃ e, (parseXmlToBlocks xml).error = some e ∧ e ≠ "")) ∧
    (parseXmlToBlocks "<a><b></a>").blocks = [] ∧
    (∃ e, (parseXmlToBlocks "<a><b></a>").error = some e ∧ e ≠ "") := by
  refine ⟨fun xml => ?_, rfl,
    ⟨"mismatched closing tag a for b", by rfl, by decide⟩⟩
  cases hp : parseStage1 xml with
  | error m =>
    right
    refine ⟨?_, m, ?_, parseStage1_error_ne xml m hp⟩ <;>
      simp only [parseXmlToBlocks, hp]
  | ok tw =>
    left
    simp only [parseXmlToBlocks, hp, blocksStage2]

/-- C4 — Fallback wrapping: the multi-root input `<a>1</a>\n<b>2</b>`
fails the direct single-root parse, and the wrapped re-parse produces
exactly the two blocks `a`/`1` and `b`/`2`, with the fallback-wrapper flag
set and no error. -/
theorem fallback_wrapping :
    (∃ e, domParse "<a>1</a>\n<b>2</b>" = .error e) ∧
    parseXmlToBlocks "<a>1</a>\n<b>2</b>" =
      { root := none,
        blocks := [{ tag := "a", content := "1", attrs := [] },
                   { tag := "b", content := "2", attrs := [] }],
        wrapped := some true, error := none } :=
  ⟨⟨"junk after document element", rfl⟩, rfl⟩

/-- C9 — The synthetic wrapper leaks on empty input: the empty string (and
likewise whitespace-only input) fails the direct parse, succeeds via the
synthetic-wrapper fallback, and produces exactly one block whose tag is the
wrapper name `x-root`, with empty content, no attributes, the
fallback-wrapper flag set and no error. -/
theorem empty_input_wrapper_leak :
    (∃ e, domParse "" = .error e) ∧
    parseXmlToBlocks "" =
      { root := none, blocks := [{ tag := "x-root", content := "", attrs := [] }],
        wrapped := some true, error := none } ∧
    parseXmlToBlocks " \n " =
      { root := none, blocks := [{ tag := "x-root", content := "", attrs := [] }],
        wrapped := some true, error := none } :=
  ⟨⟨"expected an element", rfl⟩, rfl, rfl⟩

/-- The parse tree of `<r><a>1</a></r>`, used to instantiate the witnesses
of the conditional parser theorems. -/
def sampleTree : XNode :=
  .elem "r" [] (.cons (.elem "a" [] (.cons (.text "1") .nil)) .nil)

/-- C5 — Root selection and `rootTagName`: `<note>hello</note>` parses to
the single block `note`/`hello` with no retained root name; and for every
input accepted by the two-attempt parse stage, the result carries a root
tag name exactly when the fallback wrapper was not used and the root
element has at least one direct element child. -/
theorem root_selection :
    parseXmlToBlocks "<note>hello</note>" =
      { root := none, blocks := [{ tag := "note", content := "hello", attrs := [] }],
        wrapped := some false, error := none } ∧
    (∀ (xml : String) (t : XNode) (w : Bool),
      parseStage1 xml = .ok (t, w) →
      ((parseXmlToBlocks xml).root.isSome ↔ (w = false ∧ elemChildren t ≠ []))) := by
  refine ⟨rfl, fun xml t w hp => ?_⟩
  simp only [parseXmlToBlocks, hp, blocksStage2]
  split
  · rename_i hcond
    simp only [Option.isSome_some, true_iff]
    obtain ⟨hw, hne⟩ := hcond
    refine ⟨by simpa using hw, ?_⟩
    simpa [List.isEmpty_iff] using hne
  · rename_i hcond
    simp only [Option.isSome_none, Bool.false_eq_true, false_iff]
    intro ⟨hw, hne⟩
    exact hcond ⟨by simp [hw], by simpa [List.isEmpty_iff] using hne⟩

/-- C5 witness: the parse-stage hypothesis discharged at the concrete
input `<r><a>1</a></r>`. -/
theorem root_selection_witness :
    parseStage1 "<r><a>1</a></r>" = .ok (sampleTree, false) ∧
    ((parseXmlToBlocks "<r><a>1</a></r>").root.isSome ↔
      (false = false ∧ elemChildren sampleTree ≠ [])) :=
  ⟨rfl, root_selection.2 "<r><a>1</a></r>" sampleTree false rfl⟩

/-- C10 — Flattening extraction: whenever the accepted document's root has
at least one direct element child, the blocks come from exactly those
element children (text that is a direct child of the root is discarded),
and each block's content is the trimmed concatenation of all descendant
text of its element, so nested markup is flattened; concretely,
`<r>junk<a>x<b>y</b>z</a></r>` yields the single block `a`/`xyz`. -/
theorem element_children_flattening :
    (∀ (xml : String) (t : XNode) (w : Bool),
      parseStage1 xml = .ok (t, w) →
      elemChildren t ≠ [] →
      (parseXmlToBlocks xml).blocks =
        (elemChildren t).map (fun el =>
          { tag := tagOf el, content := jsTrim (textContent el), attrs := attrsOf el })) ∧
    parseXmlToBlocks "<r>junk<a>x<b>y</b>z</a></r>" =
      { root := some "r", blocks := [{ tag := "a", content := "xyz", attrs := [] }],
        wrapped := some false, error := none } := by
  refine ⟨fun xml t w hp hne => ?_, rfl⟩
  simp only [parseXmlToBlocks, hp, blocksStage2]
  rw [if_pos]
  simpa [List.isEmpty_iff] using hne

/-- C10 witness: both hypotheses discharged at the concrete input
`<r><a>1</a></r>`. -/
theorem element_children_flattening_witness :
    parseStage1 "<r><a>1</a></r>" = .ok (sampleTree, false) ∧
    elemChildren sampleTree ≠ [] ∧
    (parseXmlToBlocks "<r><a>1</a></r>").blocks =
      (elemChildren sampleTree).map (fun el =>
        { tag := tagOf el, content := jsTrim (textContent el), attrs := attrsOf el }) :=
  ⟨rfl, by decide,
    element_children_flattening.1 "<r><a>1</a></r>" sampleTree false rfl (by decide)⟩

/-! ## Round-trip development: list utilities -/

/-- The head of `rest`, if any, falsifies `p` (used to pin down where
`takeWhile`/`dropWhile` stop). -/
def headNot (p : Char → Bool) : List Char → Prop
  | [] => True
  | c :: _ => p c = false

theorem takeWhile_append_all {p : Char → Bool} {xs rest : List Char}
    (hall : ∀ c ∈ xs, p c = true) (hrest : headNot p rest) :
    (xs ++ rest).takeWhile p = xs := by
  induction xs with
  | nil =>
    cases rest with
    | nil => rfl
    | cons r rs =>
      have : p r = false := hrest
      simp [List.takeWhile, this]
  | cons x xs ih =>
    have hx := hall x (by simp)
    simp only [List.cons_append, List.takeWhile, hx]
    rw [List.append_eq, ih (fun c hc => hall c (by simp [hc]))]

theorem dropWhile_append_all {p : Char → Bool} {xs rest : List Char}
    (hall : ∀ c ∈ xs, p c = true) (hrest : headNot p rest) :
    (xs ++ rest).dropWhile p = rest := by
  induction xs with
  | nil =>
    cases rest with
    | nil => rfl
    | cons r rs =>
      have : p r = false := hrest
      simp [List.dropWhile, this]
  | cons x xs ih =>
    have hx := hall x (by simp)
    simp only [List.cons_append, List.dropWhile, hx]
    rw [List.append_eq]
    exact ih (fun c hc => hall c (by simp [hc]))

theorem dropWhile_ws_prefix {p : Char → Bool} {ws l : List Char}
    (hall : ∀ c ∈ ws, p c = true) :
    (ws ++ l).dropWhile p = l.dropWhile p := by
  induction ws with
  | nil => rfl
  | cons x xs ih =>
    have hx := hall x (by simp)
    simp only [List.cons_append, List.dropWhile, hx]
    exact ih (fun c hc => hall c (by simp [hc]))

theorem jsJoinData_append (sep : Char) (xs ys : List (List Char))
    (hx : xs ≠ []) (hy : ys ≠ []) :
    jsJoinData sep (xs ++ ys) = jsJoinData sep xs ++ sep :: jsJoinData sep ys := by
  induction xs with
  | nil => exact absurd rfl hx
  | cons x xs ih =>
    cases xs with
    | nil =>
      cases ys with
      | nil => exact absurd rfl hy
      | cons y ys => simp [jsJoinData]
    | cons x2 xs2 =>
      have := ih (by simp)
      simp only [List.cons_append] at this ⊢
      rw [show jsJoinData sep (x :: x2 :: (xs2 ++ ys)) =
            x ++ sep :: jsJoinData sep (x2 :: (xs2 ++ ys)) from rfl,
          this, jsJoinData]
      simp

theorem splitCharList_no_sep {sep : Char} {l : List Char} (h : sep ∉ l) :
    splitCharList sep l = [l] := by
  induction l with
  | nil => rfl
  | cons c cs ih =>
    have hc : c ≠ sep := fun e => h (e ▸ List.mem_cons_self c cs)
    rw [splitCharList, if_neg hc, ih (fun hm => h (List.mem_cons_of_mem c hm))]

theorem jsSplit_single {s : String} {sep : Char} (h : sep ∉ s.data) :
    jsSplit s sep = [s] := by
  simp [jsSplit, splitCharList_no_sep h]

theorem normNewlines_id {l : List Char} (h : '\r' ∉ l) : normNewlines l = l := by
  induction l with
  | nil => rfl
  | cons c cs ih =>
    have hc : c ≠ '\r' := fun e => h (e ▸ List.mem_cons_self c cs)
    have hcs : '\r' ∉ cs := fun hm => h (List.mem_cons_of_mem c hm)
    cases cs with
    | nil => simp [normNewlines, hc]
    | cons d rest => rw [normNewlines, if_neg hc, ih hcs]

theorem flatMap_length_ge {l : List Char} {f : Char → List Char}
    (h : ∀ a, f a ≠ []) : l.length ≤ (l.flatMap f).length := by
  induction l with
  | nil => simp
  | cons c cs ih =>
    have h1 : (f c).length ≥ 1 := by
      cases hf : f c with
      | nil => exact absurd hf (h c)
      | cons x xs => simp
    have h2 : (c :: cs).flatMap f = f c ++ cs.flatMap f := List.flatMap_cons c cs f
    simp only [h2, List.length_append, List.length_cons]
    omega

theorem flatMap_id_of_plain {l : List Char} {f : Char → List Char}
    (h : ∀ c ∈ l, f c = [c]) : l.flatMap f = l := by
  calc l.flatMap f = l.flatMap (fun c => [c]) := List.flatMap_congr h
    _ = l := List.flatMap_singleton' l

theorem escXmlCharExpansion_ne_nil (a : Char) : escXmlCharExpansion a ≠ [] := by
  unfold escXmlCharExpansion
  split
  · decide
  split
  · decide
  split
  · decide
  split
  · decide
  split
  · decide
  · simp

theorem escXmlCharExpansion_mem {a c : Char} (h : c ∈ escXmlCharExpansion a) :
    c ∈ ['&', 'a', 'm', 'p', 'l', 't', 'g', 'q', 'u', 'o', 's', ';'] ∨
    (c = a ∧ ¬(a = '&' ∨ a = '<' ∨ a = '>' ∨ a = '"' ∨ a = squote)) := by
  unfold escXmlCharExpansion at h
  split at h
  · left; fin_cases h <;> decide
  split at h
  · left; fin_cases h <;> decide
  split at h
  · left; fin_cases h <;> decide
  split at h
  · left; fin_cases h <;> decide
  split at h
  · left; fin_cases h <;> decide
  · right
    rename_i h1 h2 h3 h4 h5
    refine ⟨by simpa using h, ?_⟩
    rintro (e | e | e | e | e) <;> exact (by simp [e] at h1 h2 h3 h4 h5)

/-! ## Round-trip development: good characters and entity decoding -/

/-- Characters of a single-line block content that survive the XML round
trip: XML text characters other than the newline. -/
def goodContentChar (c : Char) : Bool :=
  c != '\n' && (0x20 ≤ c.toNat || c = '\t')

/-- Characters of an attribute value that survive the XML round trip:
everything from space upwards (literal tab and newline would be
whitespace-normalised away by the parser). -/
def goodValueChar (c : Char) : Bool := 0x20 ≤ c.toNat

/-- Is a string a well-formed XML name for the embedded parser? -/
def validNameB (s : String) : Bool :=
  match s.data with
  | [] => false
  | c :: cs => isNameStart c && cs.all isNameChar

theorem escapeXml_mem_not_delim {v : String} {c : Char}
    (h : c ∈ (escapeXml v).data) : c ≠ '<' ∧ c ≠ '"' ∧ c ≠ squote := by
  rw [escapeXml_data] at h
  obtain ⟨a, _, ha⟩ := List.mem_flatMap.mp h
  rcases escXmlCharExpansion_mem ha with hmem | ⟨rfl, hns⟩
  · fin_cases hmem <;> refine ⟨by decide, by decide, by decide⟩
  · exact ⟨fun e => hns (by simp [e]), fun e => hns (by simp [e]),
      fun e => hns (by simp [e])⟩

theorem escapeXml_mem_text {v : String} {c : Char}
    (hv : ∀ x ∈ v.data, isXmlTextChar x = true)
    (h : c ∈ (escapeXml v).data) : isXmlTextChar c = true := by
  rw [escapeXml_data] at h
  obtain ⟨a, hal, ha⟩ := List.mem_flatMap.mp h
  rcases escXmlCharExpansion_mem ha with hmem | ⟨rfl, _⟩
  · fin_cases hmem <;> decide
  · exact hv _ hal

theorem escapeXml_mem_value_plain {v : String} {c : Char}
    (hv : ∀ x ∈ v.data, goodValueChar x = true)
    (h : c ∈ (escapeXml v).data) : c ≠ '\r' ∧ c ≠ '\t' ∧ c ≠ '\n' := by
  rw [escapeXml_data] at h
  obtain ⟨a, hal, ha⟩ := List.mem_flatMap.mp h
  rcases escXmlCharExpansion_mem ha with hmem | ⟨rfl, _⟩
  · fin_cases hmem <;> refine ⟨by decide, by decide, by decide⟩
  · have hg : (32 : Nat) ≤ c.toNat := by simpa [goodValueChar] using hv _ hal
    refine ⟨fun e => absurd (e ▸ hg) (by decide),
      fun e => absurd (e ▸ hg) (by decide),
      fun e => absurd (e ▸ hg) (by decide)⟩

theorem escapeXml_mem_content {v : String} {c : Char}
    (hv : ∀ x ∈ v.data, goodContentChar x = true)
    (h : c ∈ (escapeXml v).data) : c ≠ '\r' ∧ c ≠ '\n' := by
  rw [escapeXml_data] at h
  obtain ⟨a, hal, ha⟩ := List.mem_flatMap.mp h
  rcases escXmlCharExpansion_mem ha with hmem | ⟨rfl, _⟩
  · fin_cases hmem <;> refine ⟨by decide, by decide⟩
  · have hg := hv _ hal
    simp only [goodContentChar, Bool.and_eq_true, bne_iff_ne, ne_eq,
      Bool.or_eq_true, decide_eq_true_eq] at hg
    refine ⟨fun e => ?_, hg.1⟩
    rcases hg.2 with h32 | ht
    · exact absurd (e ▸ h32) (by decide)
    · exact absurd (ht ▸ e : ('\t' : Char) = '\r') (by decide)

theorem goodContentChar_text {c : Char} (h : goodContentChar c = true) :
    isXmlTextChar c = true := by
  simp only [goodContentChar, Bool.and_eq_true, Bool.or_eq_true, bne_iff_ne,
    ne_eq, decide_eq_true_eq] at h
  simp only [isXmlTextChar, Bool.or_eq_true, decide_eq_true_eq]
  tauto

theorem goodValueChar_text {c : Char} (h : goodValueChar c = true) :
    isXmlTextChar c = true := by
  simp only [goodValueChar, decide_eq_true_eq] at h
  simp only [isXmlTextChar, Bool.or_eq_true, decide_eq_true_eq]
  tauto

theorem decode_entity_step (body : List Char) (ch : Char) (rest : List Char)
    (f : Nat) (hb : ∀ c ∈ body, (c != ';') = true)
    (hval : entityVal body = some ch) :
    decodeEntities (f + 1) ('&' :: (body ++ ';' :: rest)) =
      match decodeEntities f rest with
      | .ok tail => .ok (ch :: tail)
      | .error e => .error e := by
  have hnm : (body ++ ';' :: rest).takeWhile (· != ';') = body :=
    takeWhile_append_all hb (by simp [headNot])
  have hlen : body.length < (body ++ ';' :: rest).length := by
    simp [List.length_append]
  have hdrop : (body ++ ';' :: rest).drop (body.length + 1) = rest := by
    have : body ++ ';' :: rest = (body ++ [';']) ++ rest := by simp
    rw [this, show body.length + 1 = (body ++ [';']).length by simp,
      List.drop_left]
  simp [decodeEntities, hnm, hdrop, hval, hlen]

theorem decodeEntities_rt (l : List Char) (fuel : Nat)
    (hgood : ∀ c ∈ l, isXmlTextChar c = true) (hfuel : l.length ≤ fuel) :
    decodeEntities fuel (l.flatMap escXmlCharExpansion) = .ok l := by
  induction l generalizing fuel with
  | nil => cases fuel <;> rfl
  | cons c cs ih =>
    obtain ⟨f, rfl⟩ : ∃ f, fuel = f + 1 := by
      cases fuel
      · exact absurd hfuel (by simp)
      · exact ⟨_, rfl⟩
    have hcs : ∀ x ∈ cs, isXmlTextChar x = true :=
      fun x hx => hgood x (List.mem_cons_of_mem c hx)
    have hfs : cs.length ≤ f := by
      simp only [List.length_cons] at hfuel; omega
    have hrec := ih f hcs hfs
    have hx := hgood c (List.mem_cons_self c cs)
    rw [List.flatMap_cons]
    by_cases h1 : c = '&'
    · subst h1
      rw [show escXmlCharExpansion '&' ++ cs.flatMap escXmlCharExpansion =
            '&' :: (['a', 'm', 'p'] ++ ';' :: cs.flatMap escXmlCharExpansion) from rfl,
        decode_entity_step ['a', 'm', 'p'] '&' _ f (by decide) (by decide), hrec]
    by_cases h2 : c = '<'
    · subst h2
      rw [show escXmlCharExpansion '<' ++ cs.flatMap escXmlCharExpansion =
            '&' :: (['l', 't'] ++ ';' :: cs.flatMap escXmlCharExpansion) from rfl,
        decode_entity_step ['l', 't'] '<' _ f (by decide) (by decide), hrec]
    by_cases h3 : c = '>'
    · subst h3
      rw [show escXmlCharExpansion '>' ++ cs.flatMap escXmlCharExpansion =
            '&' :: (['g', 't'] ++ ';' :: cs.flatMap escXmlCharExpansion) from rfl,
        decode_entity_step ['g', 't'] '>' _ f (by decide) (by decide), hrec]
    by_cases h4 : c = '"'
    · subst h4
      rw [show escXmlCharExpansion '"' ++ cs.flatMap escXmlCharExpansion =
            '&' :: (['q', 'u', 'o', 't'] ++ ';' :: cs.flatMap escXmlCharExpansion) from rfl,
        decode_entity_step ['q', 'u', 'o', 't'] '"' _ f (by decide) (by decide), hrec]
    by_cases h5 : c = squote
    · subst h5
      rw [show escXmlCharExpansion squote ++ cs.flatMap escXmlCharExpansion =
            '&' :: (['a', 'p', 'o', 's'] ++ ';' :: cs.flatMap escXmlCharExpansion) from rfl,
        decode_entity_step ['a', 'p', 'o', 's'] squote _ f (by decide) (by decide), hrec]
    · rw [show escXmlCharExpansion c = [c] by
        simp [escXmlCharExpansion, h1, h2, h3, h4, h5]]
      simp [decodeEntities, h1, hx, hrec]

/-! ## Round-trip development: trimming -/

theorem jsTrim_data (s : String) :
    (jsTrim s).data =
      ((s.data.dropWhile jsWsChar).reverse.dropWhile jsWsChar).reverse := rfl

theorem jsTrim_ws_wrap (ws1 ws2 : List Char) (s : String)
    (h1 : ∀ c ∈ ws1, jsWsChar c = true) (h2 : ∀ c ∈ ws2, jsWsChar c = true) :
    jsTrim ⟨ws1 ++ s.data ++ ws2⟩ = jsTrim s := by
  have key :
      ((ws1 ++ s.data ++ ws2).dropWhile jsWsChar).reverse.dropWhile jsWsChar =
        ((s.data.dropWhile jsWsChar).reverse.dropWhile jsWsChar) := by
    rw [List.append_assoc, dropWhile_ws_prefix h1, List.dropWhile_append]
    by_cases hnil : (s.data.dropWhile jsWsChar).isEmpty
    · rw [if_pos hnil]
      have hall : ∀ c ∈ ws2, jsWsChar c = true := h2
      have hd : ws2.dropWhile jsWsChar = [] := by
        rw [List.dropWhile_eq_nil_iff]
        exact hall
      rw [hd]
      have : s.data.dropWhile jsWsChar = [] := by
        cases hm : s.data.dropWhile jsWsChar with
        | nil => rfl
        | cons x xs => rw [hm] at hnil; simp at hnil
      rw [this]
    · rw [if_neg hnil, List.reverse_append, dropWhile_ws_prefix]
      intro c hc
      exact h2 c (List.mem_reverse.mp hc)
  exact congrArg (fun l => String.mk l.reverse) key

/-! ## Round-trip development: the shape of serialized output -/

/-- The attributes a block actually emits. -/
def keptAttrs (attrs : List XmlAttr) : List XmlAttr :=
  attrs.filter (fun a => jsTrim a.name ≠ "")

/-- Character data of one rendered attribute fragment. -/
def attrFragData (a : XmlAttr) : List Char :=
  a.name.data ++ ['=', '"'] ++ (escapeXml a.value).data ++ ['"']

/-- Character data of a rendered attribute list (space-separated). -/
def attrsData : List XmlAttr → List Char
  | [] => []
  | [a] => attrFragData a
  | a :: b :: rest => attrFragData a ++ ' ' :: attrsData (b :: rest)

/-- Character data of a rendered opening tag. -/
def openData (b : Block) : List Char :=
  '<' :: b.tag.data ++
    (if keptAttrs b.attrs = [] then [] else ' ' :: attrsData (keptAttrs b.attrs)) ++
    ['>']

/-- Character data emitted between a block's opening and closing tags. -/
def innerEscData (n : Nat) (b : Block) : List Char :=
  '\n' :: (if jsTrim b.content ≠ "" then
    List.replicate n ' ' ++ (escapeXml b.content).data ++ ['\n'] else [])

/-- Character data of a rendered closing tag. -/
def closeData (b : Block) : List Char :=
  '<' :: '/' :: b.tag.data ++ ['>']

/-- Character data of one fully rendered block at indent width `n`. -/
def blockData (n : Nat) (b : Block) : List Char :=
  openData b ++ innerEscData n b ++ closeData b

/-- Character data of a rendered block list at indent width `n`. -/
def docData (n : Nat) : List Block → List Char
  | [] => []
  | [b] => blockData n b
  | b :: b2 :: rest => blockData n b ++ '\n' :: docData n (b2 :: rest)

theorem attrFrag_data (a : XmlAttr) :
    (a.name ++ "=\"" ++ escapeXml a.value ++ "\"").data = attrFragData a := by
  simp [attrFragData, String.data_append]

theorem renderAttrs_data (attrs : List XmlAttr) :
    (renderAttrs attrs).data = attrsData (keptAttrs attrs) := by
  show jsJoinData ' ' (((keptAttrs attrs).map _).map String.data) = _
  generalize keptAttrs attrs = as
  induction as with
  | nil => rfl
  | cons a rest ih =>
    cases rest with
    | nil =>
      show jsJoinData ' ' [_] = _
      rw [jsJoinData]
      exact attrFrag_data a
    | cons b rest2 =>
      show jsJoinData ' ' (_ :: _ :: _) = _
      rw [jsJoinData, attrsData, ← ih, attrFrag_data]
      simp

theorem attrsData_ne_nil {as : List XmlAttr} (h : as ≠ []) : attrsData as ≠ [] := by
  match as with
  | [a] =>
    show attrFragData a ≠ []
    simp [attrFragData]
  | a :: b :: rest =>
    show attrFragData a ++ ' ' :: attrsData (b :: rest) ≠ []
    simp

theorem renderAttrs_empty_iff (attrs : List XmlAttr) :
    renderAttrs attrs = "" ↔ keptAttrs attrs = [] := by
  constructor
  · intro h
    by_contra hne
    have hd : (renderAttrs attrs).data = [] := by rw [h]
    rw [renderAttrs_data] at hd
    exact attrsData_ne_nil hne hd
  · intro h
    have hd : (renderAttrs attrs).data = [] := by rw [renderAttrs_data, h]; rfl
    have := congrArg String.mk hd
    simpa using this

theorem renderBlockLines_ne_nil (esc : String → String) (n : Nat) (b : Block)
    (level : Nat) : renderBlockLines esc n b level ≠ [] := by
  simp [renderBlockLines]

theorem blockData_eq (n : Nat) (b : Block) (hsingle : '\n' ∉ b.content.data) :
    jsJoinData '\n' ((renderBlockLines escapeXml n b 0).map String.data) =
      blockData n b := by
  have hopen :
      (spaces (0 * n) ++
        (if renderAttrs b.attrs = "" then "<" ++ b.tag ++ ">"
         else "<" ++ b.tag ++ " " ++ renderAttrs b.attrs ++ ">")).data =
      openData b := by
    by_cases hk : keptAttrs b.attrs = []
    · rw [if_pos ((renderAttrs_empty_iff b.attrs).mpr hk)]
      simp [spaces, openData, hk, String.data_append]
    · rw [if_neg (fun e => hk ((renderAttrs_empty_iff b.attrs).mp e))]
      simp [spaces, openData, hk, String.data_append, renderAttrs_data]
  have hclose : (spaces (0 * n) ++ "</" ++ b.tag ++ ">").data = closeData b := by
    simp [spaces, closeData, String.data_append]
  by_cases hc : jsTrim b.content ≠ ""
  · have hlines : renderBlockLines escapeXml n b 0 =
        [spaces (0 * n) ++
          (if renderAttrs b.attrs = "" then "<" ++ b.tag ++ ">"
           else "<" ++ b.tag ++ " " ++ renderAttrs b.attrs ++ ">"),
         spaces ((0 + 1) * n) ++ escapeXml b.content,
         spaces (0 * n) ++ "</" ++ b.tag ++ ">"] := by
      simp only [renderBlockLines, if_pos hc, jsSplit_single hsingle, List.map]
      rfl
    rw [hlines]
    show _ ++ '\n' :: (_ ++ '\n' :: _) = _
    rw [hopen, hclose, blockData, innerEscData, if_pos hc]
    simp [spaces, String.data_append, jsJoinData]
  · have hlines : renderBlockLines escapeXml n b 0 =
        [spaces (0 * n) ++
          (if renderAttrs b.attrs = "" then "<" ++ b.tag ++ ">"
           else "<" ++ b.tag ++ " " ++ renderAttrs b.attrs ++ ">"),
         spaces (0 * n) ++ "</" ++ b.tag ++ ">"] := by
      simp only [renderBlockLines, if_neg hc]
      rfl
    rw [hlines]
    show _ ++ '\n' :: _ = _
    rw [hopen, hclose, blockData, innerEscData, if_neg hc]
    simp [jsJoinData]

theorem flatMap_lines_ne_nil (esc : String → String) (n : Nat)
    (blocks : List Block) (hne : blocks ≠ []) :
    blocks.flatMap (fun b => renderBlockLines esc n b 0) ≠ [] := by
  cases blocks with
  | nil => exact absurd rfl hne
  | cons b rest =>
    rw [List.flatMap_cons]
    intro h
    rcases List.append_eq_nil.mp h with ⟨h1, _⟩
    exact renderBlockLines_ne_nil esc n b 0 h1

theorem buildXml_data (blocks : List Block) (n : Nat)
    (hsingle : ∀ b ∈ blocks, '\n' ∉ b.content.data) :
    jsJoinData '\n'
        ((blocks.flatMap (fun b => renderBlockLines escapeXml n b 0)).map
          String.data) =
      docData n blocks := by
  induction blocks with
  | nil => rfl
  | cons b rest ih =>
    cases hr : rest with
    | nil =>
      rw [List.flatMap_cons]
      simp only [List.flatMap_nil, List.append_nil]
      exact blockData_eq n b (hsingle b (by simp))
    | cons b2 rest2 =>
      have ih' := ih (fun x hx => hsingle x (List.mem_cons_of_mem b hx))
      rw [hr] at ih'
      rw [List.flatMap_cons, List.map_append,
        jsJoinData_append '\n' _ _
          (by simpa using renderBlockLines_ne_nil escapeXml n b 0)
          (by simpa [List.map_eq_nil_iff] using
            flatMap_lines_ne_nil escapeXml n (b2 :: rest2) (by simp)),
        blockData_eq n b (hsingle b (by simp)), ih', docData]

/-! ## Round-trip development: scanners -/

theorem contains_eq_false {l : List Char} {x : Char} (h : ∀ c ∈ l, c ≠ x) :
    l.contains x = false := by
  rw [← Bool.not_eq_true]
  intro hc
  rw [List.contains_iff_exists_mem_beq] at hc
  obtain ⟨a, ha, hb⟩ := hc
  exact h a ha (beq_iff_eq.mp hb).symm

theorem nameStart_nameChar {c : Char} (h : isNameStart c = true) :
    isNameChar c = true := by
  simp [isNameChar, h]

theorem nameStart_not_ws {c : Char} (h : isNameStart c = true) :
    isXmlWs c = false := by
  by_contra hw
  simp only [Bool.not_eq_false, isXmlWs, Bool.or_eq_true, decide_eq_true_eq] at hw
  rcases hw with ((e | e) | e) | e <;> subst e <;> exact absurd h (by decide)

theorem validNameB_elim {s : String} (h : validNameB s = true) :
    ∃ c cs, s.data = c :: cs ∧ isNameStart c = true ∧
      ∀ x ∈ cs, isNameChar x = true := by
  unfold validNameB at h
  cases hd : s.data with
  | nil => rw [hd] at h; exact absurd h (by decide)
  | cons c cs =>
    rw [hd] at h
    simp only [Bool.and_eq_true, List.all_eq_true] at h
    exact ⟨c, cs, rfl, h.1, fun x hx => h.2 x hx⟩

theorem scanName_rt {t : String} {rest : List Char} (hv : validNameB t = true)
    (hrest : headNot isNameChar rest) :
    scanName (t.data ++ rest) = .ok (t, rest) := by
  obtain ⟨c, cs, hd, hstart, hall⟩ := validNameB_elim hv
  rw [hd]
  show scanName (c :: (cs ++ rest)) = .ok (t, rest)
  simp only [scanName, if_pos hstart,
    takeWhile_append_all hall hrest, dropWhile_append_all hall hrest]
  have : String.mk (c :: cs) = t := by rw [← hd]
  rw [this]

/-- A well-behaved emitted attribute: valid name, value of plain characters. -/
def GoodAttr (a : XmlAttr) : Prop :=
  validNameB a.name = true ∧ ∀ x ∈ a.value.data, goodValueChar x = true

theorem scanAttrs_rt (as : List XmlAttr) (rest : List Char) (fuel : Nat)
    (hfuel : as.length + 1 ≤ fuel) (hgood : ∀ a ∈ as, GoodAttr a) :
    scanAttrs fuel ((if as = [] then [] else ' ' :: attrsData as) ++ '>' :: rest) =
      .ok (as, '>' :: rest) := by
  induction as generalizing fuel with
  | nil =>
    obtain ⟨f, rfl⟩ : ∃ f, fuel = f + 1 := by
      cases fuel
      · exact absurd hfuel (by simp)
      · exact ⟨_, rfl⟩
    simp only [if_pos rfl, List.nil_append]
    show scanAttrs (f + 1) ('>' :: rest) = .ok ([], '>' :: rest)
    have hdw : ('>' :: rest).dropWhile isXmlWs = '>' :: rest := by
      rw [List.dropWhile_cons_of_neg]
      simp [isXmlWs]
    simp only [scanAttrs, hdw]
    rw [if_neg (by decide : ¬isNameStart '>' = true)]
  | cons a as ih =>
    obtain ⟨f, rfl⟩ : ∃ f, fuel = f + 1 := by
      cases fuel
      · exact absurd hfuel (by simp)
      · exact ⟨_, rfl⟩
    obtain ⟨hna, hva⟩ := hgood a (by simp)
    obtain ⟨c, cs, hd, hstart, hall⟩ := validNameB_elim hna
    -- the input splits as a leading space, the first fragment, and the tail
    have hsplit :
        (if a :: as = [] then [] else ' ' :: attrsData (a :: as)) ++ '>' :: rest =
          ' ' :: (attrFragData a ++
            ((if as = [] then [] else ' ' :: attrsData as) ++ '>' :: rest)) := by
      rw [if_neg (by simp)]
      cases as with
      | nil => simp [attrsData]
      | cons b bs => simp [attrsData]
    rw [hsplit]
    have hesc_ne : ∀ x ∈ (escapeXml a.value).data, (x != '"') = true := by
      intro x hx
      simpa using (escapeXml_mem_not_delim hx).2.1
    have hfrag :
        attrFragData a ++
            ((if as = [] then [] else ' ' :: attrsData as) ++ '>' :: rest) =
          c :: (cs ++ ('=' :: '"' :: ((escapeXml a.value).data ++ '"' ::
            ((if as = [] then [] else ' ' :: attrsData as) ++ '>' :: rest)))) := by
      rw [attrFragData, hd]
      simp
    have hdw :
        (' ' :: (attrFragData a ++
          ((if as = [] then [] else ' ' :: attrsData as) ++ '>' :: rest))).dropWhile
            isXmlWs =
          c :: (cs ++ ('=' :: '"' :: ((escapeXml a.value).data ++ '"' ::
            ((if as = [] then [] else ' ' :: attrsData as) ++ '>' :: rest)))) := by
      rw [List.dropWhile_cons_of_pos (by decide), hfrag,
        List.dropWhile_cons_of_neg (by simp [nameStart_not_ws hstart])]
    have hdwn :
        (cs ++ ('=' :: '"' :: ((escapeXml a.value).data ++ '"' ::
            ((if as = [] then [] else ' ' :: attrsData as) ++ '>' :: rest)))).dropWhile
          isNameChar =
          '=' :: '"' :: ((escapeXml a.value).data ++ '"' ::
            ((if as = [] then [] else ' ' :: attrsData as) ++ '>' :: rest)) :=
      dropWhile_append_all hall (by simp [headNot]; decide)
    have htwn :
        (cs ++ ('=' :: '"' :: ((escapeXml a.value).data ++ '"' ::
            ((if as = [] then [] else ' ' :: attrsData as) ++ '>' :: rest)))).takeWhile
          isNameChar = cs :=
      takeWhile_append_all hall (by simp [headNot]; decide)
    have hchunk :
        ((escapeXml a.value).data ++ '"' ::
            ((if as = [] then [] else ' ' :: attrsData as) ++ '>' :: rest)).takeWhile
          (· != '"') = (escapeXml a.value).data :=
      takeWhile_append_all hesc_ne (by simp [headNot])
    have hqdrop :
        ((escapeXml a.value).data ++ '"' ::
            ((if as = [] then [] else ' ' :: attrsData as) ++ '>' :: rest)).dropWhile
          (· != '"') = '"' ::
            ((if as = [] then [] else ' ' :: attrsData as) ++ '>' :: rest) :=
      dropWhile_append_all hesc_ne (by simp [headNot])
    have hcont : (escapeXml a.value).data.contains '<' = false :=
      contains_eq_false (fun x hx => (escapeXml_mem_not_delim hx).1)
    have hnrm : (escapeXml a.value).data.map nrmAttrWs = (escapeXml a.value).data := by
      have : ∀ x ∈ (escapeXml a.value).data, nrmAttrWs x = x := by
        intro x hx
        obtain ⟨-, ht, hn⟩ := escapeXml_mem_value_plain hva hx
        simp [nrmAttrWs, ht, hn]
      calc (escapeXml a.value).data.map nrmAttrWs
          = (escapeXml a.value).data.map id := List.map_congr_left this
        _ = _ := List.map_id _
    have hdec :
        decodeEntities ((escapeXml a.value).data.length + 1)
            ((escapeXml a.value).data.map nrmAttrWs) = .ok a.value.data := by
      rw [hnrm]
      have hlen : a.value.data.length ≤
          (a.value.data.flatMap escXmlCharExpansion).length + 1 := by
        have := flatMap_length_ge (l := a.value.data)
          (f := escXmlCharExpansion) escXmlCharExpansion_ne_nil
        omega
      rw [escapeXml_data]
      exact decodeEntities_rt _ _
        (fun x hx => goodValueChar_text (hva x hx)) hlen
    have hrec := ih f (by simpa using Nat.le_of_succ_le_succ hfuel)
      (fun x hx => hgood x (List.mem_cons_of_mem a hx))
    simp only [scanAttrs, hdw, if_pos hstart, hdwn, htwn, hchunk, hqdrop,
      hcont, Bool.false_eq_true, if_false, hdec, hrec]
    have hname : String.mk (c :: cs) = a.name := by rw [← hd]
    simp [hname]

/-! ## Round-trip development: element parsing -/

/-- The text node the parser recovers between a block's tags. -/
def parsedInner (n : Nat) (b : Block) : String :=
  ⟨'\n' :: (if jsTrim b.content ≠ "" then
    List.replicate n ' ' ++ b.content.data ++ ['\n'] else [])⟩

/-- The element the parser recovers for one serialized block. -/
def elemOf (n : Nat) (b : Block) : XNode :=
  .elem b.tag (keptAttrs b.attrs) (.cons (.text (parsedInner n b)) .nil)

/-- A block whose serialization the parser provably recovers: valid tag
other than the `parsererror` marker, single-line plain content, attributes
either dropped (name trims to empty) or well-formed, and no duplicate
emitted attribute names. -/
def GoodBlock (b : Block) : Prop :=
  validNameB b.tag = true ∧ b.tag ≠ "parsererror" ∧
  (∀ x ∈ b.content.data, goodContentChar x = true) ∧
  (∀ a ∈ b.attrs, jsTrim a.name = "" ∨ GoodAttr a) ∧
  ((keptAttrs b.attrs).map XmlAttr.name).Nodup

theorem keptAttrs_good {b : Block}
    (h : ∀ a ∈ b.attrs, jsTrim a.name = "" ∨ GoodAttr a) :
    ∀ a ∈ keptAttrs b.attrs, GoodAttr a := by
  intro a ha
  obtain ⟨hm, hk⟩ := List.mem_filter.mp ha
  rcases h a hm with he | hg
  · exact absurd he (by simpa using hk)
  · exact hg

theorem attrsData_length_ge (as : List XmlAttr) :
    as.length ≤ (attrsData as).length := by
  match as with
  | [] => simp [attrsData]
  | [a] =>
    show 1 ≤ (attrFragData a).length
    rw [attrFragData]
    simp only [List.length_append, List.length_cons]
    omega
  | a :: b :: rest =>
    have ih := attrsData_length_ge (b :: rest)
    simp only [attrsData, attrFragData, List.length_append, List.length_cons] at *
    omega

theorem goodContent_ne_nl {b : Block}
    (hg : ∀ x ∈ b.content.data, goodContentChar x = true) :
    '\n' ∉ b.content.data := by
  intro hm
  have := hg _ hm
  simp [goodContentChar] at this

theorem innerEsc_flatMap (n : Nat) (b : Block) :
    (parsedInner n b).data.flatMap escXmlCharExpansion = innerEscData n b := by
  show ('\n' :: _).flatMap escXmlCharExpansion = _
  rw [List.flatMap_cons]
  by_cases hc : jsTrim b.content ≠ ""
  · rw [if_pos hc, innerEscData, if_pos hc]
    show escXmlCharExpansion '\n' ++
        (List.replicate n ' ' ++ b.content.data ++ ['\n']).flatMap escXmlCharExpansion = _
    rw [List.flatMap_append, List.flatMap_append,
      flatMap_id_of_plain (l := List.replicate n ' ')
        (by
          intro c hc2
          rw [List.eq_of_mem_replicate hc2]
          rfl),
      ← escapeXml_data]
    rfl
  · rw [if_neg hc, innerEscData, if_neg hc]
    rfl

theorem data_mk (l : List Char) : (String.mk l).data = l := rfl

theorem parsedInner_text (n : Nat) (b : Block)
    (hg : ∀ x ∈ b.content.data, goodContentChar x = true) :
    ∀ x ∈ (parsedInner n b).data, isXmlTextChar x = true := by
  intro x hx
  simp only [parsedInner, data_mk] at hx
  rcases List.mem_cons.mp hx with rfl | hx2
  · decide
  · by_cases hc : jsTrim b.content ≠ ""
    · rw [if_pos hc] at hx2
      rcases List.mem_append.mp hx2 with h12 | h3
      · rcases List.mem_append.mp h12 with h1 | h2
        · rw [List.eq_of_mem_replicate h1]; decide
        · exact goodContentChar_text (hg x h2)
      · rw [List.mem_singleton.mp h3]; decide
    · rw [if_neg hc] at hx2
      simp at hx2

theorem innerEsc_not_lt (n : Nat) (b : Block) :
    ∀ x ∈ innerEscData n b, (x != '<') = true := by
  intro x hx
  simp only [innerEscData] at hx
  rcases List.mem_cons.mp hx with rfl | hx2
  · decide
  · by_cases hc : jsTrim b.content ≠ ""
    · rw [if_pos hc] at hx2
      rcases List.mem_append.mp hx2 with h12 | h3
      · rcases List.mem_append.mp h12 with h1 | h2
        · rw [List.eq_of_mem_replicate h1]; decide
        · simpa using (escapeXml_mem_not_delim h2).1
      · rw [List.mem_singleton.mp h3]; decide
    · rw [if_neg hc] at hx2
      simp at hx2

theorem parseChildren_inner (n : Nat) (b : Block) (tail : List Char) (fuel : Nat)
    (hg : ∀ x ∈ b.content.data, goodContentChar x = true)
    (hfuel : 2 ≤ fuel) (htail : ∃ r, tail = '<' :: '/' :: r) :
    parseChildren fuel (innerEscData n b ++ tail) =
      .ok (.cons (.text (parsedInner n b)) .nil, tail) := by
  obtain ⟨f, rfl⟩ : ∃ f, fuel = f + 1 := by
    cases fuel
    · exact absurd hfuel (by simp)
    · exact ⟨_, rfl⟩
  obtain ⟨r, rfl⟩ := htail
  obtain ⟨g, rfl⟩ : ∃ g, f = g + 1 := by
    cases f
    · exact absurd hfuel (by omega)
    · exact ⟨_, rfl⟩
  have hshape : innerEscData n b ++ '<' :: '/' :: r =
      '\n' :: ((innerEscData n b).tail ++ '<' :: '/' :: r) := by
    rw [innerEscData]
    rfl
  have htake :
      (innerEscData n b ++ '<' :: '/' :: r).takeWhile (· != '<') =
        innerEscData n b :=
    takeWhile_append_all (innerEsc_not_lt n b) (by simp [headNot])
  have hdrop :
      (innerEscData n b ++ '<' :: '/' :: r).dropWhile (· != '<') =
        '<' :: '/' :: r :=
    dropWhile_append_all (innerEsc_not_lt n b) (by simp [headNot])
  have hlen : (parsedInner n b).data.length ≤
      ((parsedInner n b).data.flatMap escXmlCharExpansion).length + 1 := by
    have h1 := flatMap_length_ge (l := (parsedInner n b).data)
      (f := escXmlCharExpansion) escXmlCharExpansion_ne_nil
    omega
  have hdec :
      decodeEntities ((innerEscData n b).length + 1) (innerEscData n b) =
        .ok (parsedInner n b).data := by
    rw [← innerEsc_flatMap n b]
    exact decodeEntities_rt _ _ (parsedInner_text n b hg) hlen
  have hstop : parseChildren (g + 1) ('<' :: '/' :: r) = .ok (.nil, '<' :: '/' :: r) := rfl
  -- the input starts with a newline, so the text branch of `parseChildren` fires
  rw [hshape]
  have hstep : parseChildren (g + 1 + 1)
      ('
' :: ((innerEscData n b).tail ++ '<' :: '/' :: r)) =
      (match decodeEntities
          ((('
' :: ((innerEscData n b).tail ++ '<' :: '/' :: r)).takeWhile
            (· != '<')).length + 1)
          (('
' :: ((innerEscData n b).tail ++ '<' :: '/' :: r)).takeWhile
            (· != '<')) with
       | .ok s =>
         (match parseChildren (g + 1)
             (('
' :: ((innerEscData n b).tail ++ '<' :: '/' :: r)).dropWhile
               (· != '<')) with
          | .ok (nodes, r2) => .ok (.cons (.text ⟨s⟩) nodes, r2)
          | .error e => .error e)
       | .error e => .error e) := rfl
  rw [hstep, ← hshape, htake, hdec, hdrop, hstop]

theorem parseElement_rt (n : Nat) (b : Block) (rest : List Char) (fuel : Nat)
    (hgb : GoodBlock b) (hfuel : 3 ≤ fuel) :
    parseElement fuel (blockData n b ++ rest) = .ok (elemOf n b, rest) := by
  obtain ⟨htag, -, hcont, hattrs, hnodup⟩ := hgb
  obtain ⟨f, rfl⟩ : ∃ f, fuel = f + 1 := by
    cases fuel
    · exact absurd hfuel (by simp)
    · exact ⟨_, rfl⟩
  have hf2 : 2 ≤ f := by omega
  -- normalise the input shape
  have hshape : blockData n b ++ rest =
      '<' :: (b.tag.data ++
        ((if keptAttrs b.attrs = [] then [] else ' ' :: attrsData (keptAttrs b.attrs)) ++
          '>' :: (innerEscData n b ++ (closeData b ++ rest)))) := by
    rw [blockData, openData]
    simp
  have hname : scanName (b.tag.data ++
      ((if keptAttrs b.attrs = [] then [] else ' ' :: attrsData (keptAttrs b.attrs)) ++
        '>' :: (innerEscData n b ++ (closeData b ++ rest)))) =
      .ok (b.tag, (if keptAttrs b.attrs = [] then []
          else ' ' :: attrsData (keptAttrs b.attrs)) ++
        '>' :: (innerEscData n b ++ (closeData b ++ rest))) := by
    apply scanName_rt htag
    by_cases hk : keptAttrs b.attrs = []
    · rw [if_pos hk]
      simp [headNot]
      decide
    · rw [if_neg hk]
      simp [headNot]
      decide
  have hscan := scanAttrs_rt (keptAttrs b.attrs)
    (innerEscData n b ++ (closeData b ++ rest))
    (((if keptAttrs b.attrs = [] then []
        else ' ' :: attrsData (keptAttrs b.attrs)) ++
      '>' :: (innerEscData n b ++ (closeData b ++ rest))).length + 1)
    (by
      by_cases hk : keptAttrs b.attrs = []
      · rw [if_pos hk]
        simp [hk]
      · rw [if_neg hk]
        have := attrsData_length_ge (keptAttrs b.attrs)
        simp only [List.length_append, List.length_cons]
        omega)
    (keptAttrs_good hattrs)
  have hkids := parseChildren_inner n b (closeData b ++ rest) f hcont hf2
    (by exact ⟨b.tag.data ++ ['>'] ++ rest, by rw [closeData]; simp⟩)
  have hclosename : scanName (b.tag.data ++ '>' :: rest) = .ok (b.tag, '>' :: rest) :=
    scanName_rt htag (by simp [headNot]; decide)
  have hclose_shape : closeData b ++ rest =
      '<' :: '/' :: (b.tag.data ++ '>' :: rest) := by
    rw [closeData]
    simp
  rw [hshape]
  have hstep : parseElement (f + 1)
      ('<' :: (b.tag.data ++
        ((if keptAttrs b.attrs = [] then [] else ' ' :: attrsData (keptAttrs b.attrs)) ++
          '>' :: (innerEscData n b ++ (closeData b ++ rest))))) =
      (match scanName (b.tag.data ++
          ((if keptAttrs b.attrs = [] then []
            else ' ' :: attrsData (keptAttrs b.attrs)) ++
            '>' :: (innerEscData n b ++ (closeData b ++ rest)))) with
       | .ok (tag, r1) =>
         (match scanAttrs (r1.length + 1) r1 with
          | .ok (attrs, r2) =>
            if (attrs.map XmlAttr.name).Nodup then
              match r2 with
              | '/' :: '>' :: r3 => .ok (.elem tag attrs .nil, r3)
              | '>' :: r3 =>
                (match parseChildren f r3 with
                 | .ok (kids, r4) =>
                   (match r4 with
                    | '<' :: '/' :: r5 =>
                      (match scanName r5 with
                       | .ok (ctag, r6) =>
                         if ctag = tag then
                           match r6.dropWhile isXmlWs with
                           | '>' :: r7 => .ok (.elem tag attrs kids, r7)
                           | _ => .error "malformed closing tag"
                         else .error ("mismatched closing tag " ++ ctag ++ " for " ++ tag)
                       | .error e => .error e)
                    | _ => .error "expected a closing tag")
                 | .error e => .error e)
              | _ => .error "malformed start tag"
            else .error "duplicate attribute name"
          | .error e => .error e)
       | .error e => .error e) := rfl
  rw [hstep]
  have hdw2 : ('>' :: rest).dropWhile isXmlWs = '>' :: rest := by
    rw [List.dropWhile_cons_of_neg]
    simp [isXmlWs]
  rw [hclose_shape] at hname hscan hkids ⊢
  simp only [hname, hscan, if_pos hnodup, hkids, hclosename, hdw2, elemOf]
  rw [if_pos trivial]

/-! ## Round-trip development: the children of the synthetic wrapper -/

/-- The character region inside the synthetic wrapper: a newline, then the
rendered blocks separated by newlines, then a newline followed by `r`. -/
def regionData (n : Nat) (r : List Char) : List Block → List Char
  | [] => '\n' :: r
  | b :: bs => '\n' :: (blockData n b ++ regionData n r bs)

/-- The forest of children the parser recovers inside the synthetic
wrapper: whitespace text nodes interleaved with the block elements. -/
def wrapKidsF (n : Nat) : List Block → XForest
  | [] => .cons (.text "\n") .nil
  | b :: bs => .cons (.text "\n") (.cons (elemOf n b) (wrapKidsF n bs))

theorem regionData_eq (n : Nat) (r : List Char) (bs : List Block) (hne : bs ≠ []) :
    regionData n r bs = ('\n' :: docData n bs) ++ '\n' :: r := by
  induction bs with
  | nil => exact absurd rfl hne
  | cons b bs ih =>
    cases hb : bs with
    | nil =>
      show '\n' :: (blockData n b ++ ('\n' :: r)) = _
      rw [docData]
      simp
    | cons b2 bs2 =>
      show '\n' :: (blockData n b ++ regionData n r (b2 :: bs2)) = _
      have ih2 := ih
      rw [hb] at ih2
      rw [ih2 (by simp), docData]
      simp

theorem parseChildren_nl_step (f : Nat) (l : List Char) :
    parseChildren (f + 1) ('\n' :: '<' :: l) =
      (match parseChildren f ('<' :: l) with
       | .ok (nodes, r2) => .ok (.cons (.text "\n") nodes, r2)
       | .error e => .error e) := rfl

theorem parseChildren_succ (f : Nat) (l : List Char) :
    parseChildren (f + 1) l =
      match l with
      | [] => .error "unexpected end of input inside an element"
      | '<' :: '/' :: _ => .ok (.nil, l)
      | '<' :: _ =>
        match parseElement f l with
        | .ok (node, r1) =>
          match parseChildren f r1 with
          | .ok (nodes, r2) => .ok (.cons node nodes, r2)
          | .error e => .error e
        | .error e => .error e
      | _ =>
        match decodeEntities ((l.takeWhile (· != '<')).length + 1)
            (l.takeWhile (· != '<')) with
        | .ok s =>
          match parseChildren f (l.dropWhile (· != '<')) with
          | .ok (nodes, r2) => .ok (.cons (.text ⟨s⟩) nodes, r2)
          | .error e => .error e
        | .error e => .error e := rfl

theorem parseChildren_elem_step (f : Nat) (c : Char) (l : List Char)
    (hc : c ≠ '/') :
    parseChildren (f + 1) ('<' :: c :: l) =
      (match parseElement f ('<' :: c :: l) with
       | .ok (node, r1) =>
         (match parseChildren f r1 with
          | .ok (nodes, r2) => .ok (.cons node nodes, r2)
          | .error e => .error e)
       | .error e => .error e) := by
  rw [parseChildren_succ]
  split
  · rename_i heq
    simp at heq
  · rename_i heq
    obtain ⟨h1, -⟩ := by simpa using heq
    exact absurd h1 hc
  · rfl
  · rename_i hx hne1 hne2 hne3
    exact ((hne3 (c :: l)) rfl).elim

theorem parseChildren_region (bs : List Block) (n : Nat) (rr : List Char)
    (fuel : Nat) (hgood : ∀ b ∈ bs, GoodBlock b)
    (hfuel : 3 * bs.length + 5 ≤ fuel) :
    parseChildren fuel (regionData n ('<' :: '/' :: rr) bs) =
      .ok (wrapKidsF n bs, '<' :: '/' :: rr) := by
  induction bs generalizing fuel with
  | nil =>
    obtain ⟨g, rfl⟩ : ∃ g, fuel = g + 2 := by
      refine ⟨fuel - 2, ?_⟩
      omega
    show parseChildren (g + 1 + 1) ('\n' :: '<' :: ('/' :: rr)) = _
    rw [parseChildren_nl_step]
    rfl
  | cons b bs ih =>
    obtain ⟨g, rfl⟩ : ∃ g, fuel = g + 2 := by
      refine ⟨fuel - 2, ?_⟩
      omega
    obtain ⟨htag, -, -, -, -⟩ := hgood b (by simp)
    obtain ⟨c, cs, hd, hstart, -⟩ := validNameB_elim htag
    have hbshape : blockData n b ++ regionData n ('<' :: '/' :: rr) bs =
        '<' :: (c :: (cs ++
          ((if keptAttrs b.attrs = [] then []
            else ' ' :: attrsData (keptAttrs b.attrs)) ++
            '>' :: (innerEscData n b ++
              (closeData b ++ regionData n ('<' :: '/' :: rr) bs))))) := by
    
      rw [blockData, openData, hd]
      simp
    have hcslash : c ≠ '/' := by
      intro e
      rw [e] at hstart
      exact absurd hstart (by decide)
    show parseChildren (g + 1 + 1)
        ('\n' :: (blockData n b ++ regionData n ('<' :: '/' :: rr) bs)) = _
    rw [hbshape, parseChildren_nl_step, parseChildren_elem_step g c _ hcslash,
      ← hbshape,
      parseElement_rt n b (regionData n ('<' :: '/' :: rr) bs) g
        (hgood b (by simp)) (by simp only [List.length_cons] at hfuel; omega)]
    have hih := ih g (fun x hx => hgood x (List.mem_cons_of_mem b hx))
      (by simp only [List.length_cons] at hfuel; omega)
    simp only [hih]
    rfl

/-! ## Round-trip development: serialized output has no carriage returns -/

theorem nameChar_not_cr {x : Char} (h : isNameChar x = true) : x ≠ '\r' :=
  fun e => by rw [e] at h; exact absurd h (by decide)

theorem validNameB_chars {s : String} (hv : validNameB s = true) :
    ∀ x ∈ s.data, isNameChar x = true := by
  obtain ⟨c, cs, hd, hstart, hall⟩ := validNameB_elim hv
  rw [hd]
  intro x hx
  rcases List.mem_cons.mp hx with rfl | hx2
  · exact nameStart_nameChar hstart
  · exact hall x hx2

theorem no_cr_attrFrag {a : XmlAttr} (hga : GoodAttr a) :
    ∀ x ∈ attrFragData a, x ≠ '\r' := by
  intro x hx
  simp only [attrFragData, List.mem_append, List.mem_cons,
    List.not_mem_nil, or_false] at hx
  rcases hx with ((hn | he) | hesc) | hq
  · exact nameChar_not_cr (validNameB_chars hga.1 x hn)
  · rcases he with rfl | rfl <;> decide
  · exact (escapeXml_mem_value_plain hga.2 hesc).1
  · rw [hq]; decide

theorem no_cr_attrsData {as : List XmlAttr} (h : ∀ a ∈ as, GoodAttr a) :
    ∀ x ∈ attrsData as, x ≠ '\r' := by
  match as with
  | [] => intro x hx; simp [attrsData] at hx
  | [a] =>
    intro x hx
    exact no_cr_attrFrag (h a (by simp)) x hx
  | a :: b :: rest =>
    intro x hx
    rw [show attrsData (a :: b :: rest) =
        attrFragData a ++ ' ' :: attrsData (b :: rest) from rfl] at hx
    rcases List.mem_append.mp hx with h1 | h2
    · exact no_cr_attrFrag (h a (by simp)) x h1
    · rcases List.mem_cons.mp h2 with rfl | h3
      · decide
      · exact no_cr_attrsData (fun y hy => h y (List.mem_cons_of_mem a hy)) x h3

theorem no_cr_openData {b : Block} (htag : validNameB b.tag = true)
    (hattrs : ∀ a ∈ b.attrs, jsTrim a.name = "" ∨ GoodAttr a) :
    ∀ x ∈ openData b, x ≠ '\r' := by
  intro x hx
  rw [openData] at hx
  rcases List.mem_append.mp hx with h12 | h3
  rotate_left
  · rw [List.mem_singleton.mp h3]; decide
  rcases List.mem_append.mp h12 with h1 | h2
  · rcases List.mem_cons.mp h1 with rfl | ht
    · decide
    · exact nameChar_not_cr (validNameB_chars htag x ht)
  · split at h2
    · simp at h2
    · rcases List.mem_cons.mp h2 with rfl | h4
      · decide
      · exact no_cr_attrsData (keptAttrs_good hattrs) x h4

theorem no_cr_innerEscData {n : Nat} {b : Block}
    (hcont : ∀ x ∈ b.content.data, goodContentChar x = true) :
    ∀ x ∈ innerEscData n b, x ≠ '\r' := by
  intro x hx
  rw [innerEscData] at hx
  rcases List.mem_cons.mp hx with rfl | h2
  · decide
  · split at h2
    · rcases List.mem_append.mp h2 with h12 | h3
      · rcases List.mem_append.mp h12 with h1 | hesc
        · rw [List.eq_of_mem_replicate h1]; decide
        · exact (escapeXml_mem_content hcont hesc).1
      · rw [List.mem_singleton.mp h3]; decide
    · simp at h2

theorem no_cr_closeData {b : Block} (htag : validNameB b.tag = true) :
    ∀ x ∈ closeData b, x ≠ '\r' := by
  intro x hx
  rw [closeData] at hx
  rcases List.mem_append.mp hx with h1 | h2
  · rcases List.mem_cons.mp h1 with rfl | h3
    · decide
    · rcases List.mem_cons.mp h3 with rfl | ht
      · decide
      · exact nameChar_not_cr (validNameB_chars htag x ht)
  · rw [List.mem_singleton.mp h2]; decide

theorem no_cr_blockData {n : Nat} {b : Block} (hgb : GoodBlock b) :
    ∀ x ∈ blockData n b, x ≠ '\r' := by
  obtain ⟨htag, -, hcont, hattrs, -⟩ := hgb
  intro x hx
  rw [blockData] at hx
  rcases List.mem_append.mp hx with h12 | hclose
  rotate_left
  · exact no_cr_closeData htag x hclose
  rcases List.mem_append.mp h12 with hopen | hinner
  · exact no_cr_openData htag hattrs x hopen
  · exact no_cr_innerEscData hcont x hinner

theorem no_cr_docData {n : Nat} {bs : List Block}
    (h : ∀ b ∈ bs, GoodBlock b) : ∀ x ∈ docData n bs, x ≠ '\r' := by
  match bs with
  | [] => intro x hx; simp [docData] at hx
  | [b] => exact fun x hx => no_cr_blockData (h b (by simp)) x hx
  | b :: b2 :: rest =>
    intro x hx
    rw [show docData n (b :: b2 :: rest) =
        blockData n b ++ '\n' :: docData n (b2 :: rest) from rfl] at hx
    rcases List.mem_append.mp hx with h1 | h2
    · exact no_cr_blockData (h b (by simp)) x h1
    · rcases List.mem_cons.mp h2 with rfl | h3
      · decide
      · exact no_cr_docData (fun y hy => h y (List.mem_cons_of_mem b hy)) x h3

/-! ## Round-trip development: the recovered trees -/

/-- The block the parser recovers from one serialized block: same tag, the
trimmed content, only the emitted attributes. -/
def mkParsedBlock (b : Block) : Block :=
  { tag := b.tag, content := jsTrim b.content, attrs := keptAttrs b.attrs }

theorem findElem_elemOf {n : Nat} {b : Block} (h : b.tag ≠ "parsererror") :
    findElem "parsererror" (elemOf n b) = none := by
  rw [elemOf, findElem, if_neg h]
  rfl

theorem findElemF_wrapKids {n : Nat} {bs : List Block}
    (h : ∀ b ∈ bs, b.tag ≠ "parsererror") :
    findElemF "parsererror" (wrapKidsF n bs) = none := by
  induction bs with
  | nil => rfl
  | cons b rest ih =>
    rw [wrapKidsF, findElemF]
    show (match findElem "parsererror" (.text "\n") with
          | some e => some e
          | none => findElemF "parsererror" (.cons (elemOf n b) (wrapKidsF n rest))) = none
    rw [show findElem "parsererror" (XNode.text "\n") = none from rfl]
    show findElemF "parsererror" (.cons (elemOf n b) (wrapKidsF n rest)) = none
    rw [findElemF, findElem_elemOf (h b (by simp)),
      ih (fun x hx => h x (List.mem_cons_of_mem b hx))]

theorem elemChildren_elemOf (n : Nat) (b : Block) :
    elemChildren (elemOf n b) = [] := rfl

theorem textContent_elemOf (n : Nat) (b : Block) :
    textContent (elemOf n b) = parsedInner n b := by
  show textContentF (.cons (.text (parsedInner n b)) .nil) = parsedInner n b
  rw [textContentF, textContent, textContentF]
  exact congrArg String.mk (by simp)

theorem wrapKids_elems (n : Nat) (bs : List Block) :
    (wrapKidsF n bs).toList.filter isElem = bs.map (elemOf n) := by
  induction bs with
  | nil => rfl
  | cons b rest ih =>
    show (XNode.text "\n" :: elemOf n b :: (wrapKidsF n rest).toList).filter isElem =
      elemOf n b :: rest.map (elemOf n)
    rw [List.filter_cons_of_neg (by decide), List.filter_cons_of_pos (by rfl), ih]

theorem jsTrim_parsedInner (n : Nat) (b : Block) :
    jsTrim (parsedInner n b) = jsTrim b.content := by
  by_cases hc : jsTrim b.content ≠ ""
  · have hshape : parsedInner n b =
        ⟨('\n' :: List.replicate n ' ') ++ b.content.data ++ ['\n']⟩ := by
      rw [parsedInner, if_pos hc]
      exact congrArg String.mk (by simp)
    rw [hshape]
    apply jsTrim_ws_wrap
    · intro c hcm
      rcases List.mem_cons.mp hcm with rfl | h2
      · decide
      · rw [List.eq_of_mem_replicate h2]; decide
    · intro c hcm
      rw [List.mem_singleton.mp hcm]; decide
  · push_neg at hc
    have hshape : parsedInner n b = "\n" := by
      rw [parsedInner, if_neg (by simp [hc])]
    rw [hshape, hc]
    rfl

/-! ## Round-trip development: whole-document parses -/

theorem blockData_length_ge2 (n : Nat) (b : Block) : 2 ≤ (blockData n b).length := by
  rw [blockData, openData, innerEscData, closeData]
  simp only [List.length_append, List.length_cons]
  omega

theorem regionData_length_ge (n : Nat) (r : List Char) (bs : List Block) :
    3 * bs.length + 1 + r.length ≤ (regionData n r bs).length := by
  induction bs with
  | nil =>
    rw [show regionData n r [] = '\n' :: r from rfl]
    simp only [List.length_cons, List.length_nil]
    omega
  | cons b rest ih =>
    have hb := blockData_length_ge2 n b
    rw [show regionData n r (b :: rest) =
      '\n' :: (blockData n b ++ regionData n r rest) from rfl]
    simp only [List.length_cons, List.length_append]
    omega

theorem blockData_shape (n : Nat) (b : Block) :
    blockData n b = '<' :: (b.tag.data ++
      ((if keptAttrs b.attrs = [] then [] else ' ' :: attrsData (keptAttrs b.attrs)) ++
        '>' :: (innerEscData n b ++ closeData b))) := by
  rw [blockData, openData]
  simp

theorem docData_head (n : Nat) (b : Block) (bs : List Block) :
    ∃ Y, docData n (b :: bs) = '<' :: Y := by
  cases bs with
  | nil => exact ⟨_, blockData_shape n b⟩
  | cons b2 rest =>
    rw [show docData n (b :: b2 :: rest) =
      blockData n b ++ '\n' :: docData n (b2 :: rest) from rfl, blockData_shape,
      List.cons_append]
    exact ⟨_, rfl⟩

theorem domParse_doc_single (n : Nat) (b : Block) (hgb : GoodBlock b) :
    domParse ⟨blockData n b⟩ = .ok (elemOf n b) := by
  have hcr := no_cr_blockData (n := n) hgb
  have hnorm : normNewlines (blockData n b) = blockData n b :=
    normNewlines_id (fun hm => hcr '\r' hm rfl)
  have hdw : (blockData n b).dropWhile isXmlWs = blockData n b := by
    rw [blockData_shape]
    exact List.dropWhile_cons_of_neg (by decide)
  have hlen := blockData_length_ge2 n b
  have hpe : parseElement (2 * (blockData n b).length + 2) (blockData n b ++ []) =
      .ok (elemOf n b, []) :=
    parseElement_rt n b [] _ hgb (by omega)
  rw [List.append_nil] at hpe
  simp only [domParse, data_mk, hnorm, hdw, hpe]
  rfl

theorem domParse_doc_multi (n : Nat) (b1 b2 : Block) (bs : List Block)
    (hgood : ∀ b ∈ b1 :: b2 :: bs, GoodBlock b) :
    domParse ⟨docData n (b1 :: b2 :: bs)⟩ =
      .error "junk after document element" := by
  have hcr := no_cr_docData (n := n) hgood
  have hnorm : normNewlines (docData n (b1 :: b2 :: bs)) =
      docData n (b1 :: b2 :: bs) :=
    normNewlines_id (fun hm => hcr '\r' hm rfl)
  obtain ⟨Y, hY⟩ := docData_head n b1 (b2 :: bs)
  have hdw : (docData n (b1 :: b2 :: bs)).dropWhile isXmlWs =
      docData n (b1 :: b2 :: bs) := by
    rw [hY]
    exact List.dropWhile_cons_of_neg (by decide)
  have hpe : parseElement (2 * (docData n (b1 :: b2 :: bs)).length + 2)
      (docData n (b1 :: b2 :: bs)) =
      .ok (elemOf n b1, '\n' :: docData n (b2 :: bs)) :=
    parseElement_rt n b1 ('\n' :: docData n (b2 :: bs))
      (2 * (docData n (b1 :: b2 :: bs)).length + 2) (hgood b1 (by simp))
      (by
        have h2 := blockData_length_ge2 n b1
        have hd : (docData n (b1 :: b2 :: bs)).length =
            (blockData n b1).length + 1 + (docData n (b2 :: bs)).length := by
          rw [show docData n (b1 :: b2 :: bs) =
            blockData n b1 ++ '\n' :: docData n (b2 :: bs) from rfl]
          simp only [List.length_append, List.length_cons]
          omega
        omega)
  obtain ⟨Y2, hY2⟩ := docData_head n b2 bs
  have hdwrest : ('\n' :: docData n (b2 :: bs)).dropWhile isXmlWs ≠ [] := by
    rw [List.dropWhile_cons_of_pos (by decide), hY2,
      List.dropWhile_cons_of_neg (by decide)]
    simp
  simp only [domParse, data_mk, hnorm, hdw, hpe]
  rw [if_neg hdwrest]

theorem no_cr_regionData {n : Nat} {r : List Char} {bs : List Block}
    (hgood : ∀ b ∈ bs, GoodBlock b) (hr : ∀ x ∈ r, x ≠ '\r') :
    ∀ x ∈ regionData n r bs, x ≠ '\r' := by
  induction bs with
  | nil =>
    intro x hx
    rw [show regionData n r [] = '\n' :: r from rfl] at hx
    rcases List.mem_cons.mp hx with rfl | h2
    · decide
    · exact hr x h2
  | cons b rest ih =>
    intro x hx
    rw [show regionData n r (b :: rest) =
      '\n' :: (blockData n b ++ regionData n r rest) from rfl] at hx
    rcases List.mem_cons.mp hx with rfl | h2
    · decide
    · rcases List.mem_append.mp h2 with h3 | h4
      · exact no_cr_blockData (hgood b (by simp)) x h3
      · exact ih (fun y hy => hgood y (List.mem_cons_of_mem b hy)) x h4

theorem domParse_wrapped (n : Nat) (blocks : List Block)
    (hgood : ∀ b ∈ blocks, GoodBlock b) (_hne : blocks ≠ []) :
    domParse ⟨'<' :: ("x-root".data ++ '>' ::
        regionData n ('<' :: '/' :: ("x-root".data ++ ['>'])) blocks)⟩ =
      .ok (.elem "x-root" [] (wrapKidsF n blocks)) := by
  set rr : List Char := "x-root".data ++ ['>'] with hrr
  set REG : List Char := regionData n ('<' :: '/' :: rr) blocks with hREG
  have hcrW : ∀ x ∈ '<' :: ("x-root".data ++ '>' :: REG), x ≠ '\r' := by
    intro x hx
    rcases List.mem_cons.mp hx with rfl | h2
    · decide
    · rcases List.mem_append.mp h2 with h3 | h4
      · fin_cases h3 <;> decide
      · rcases List.mem_cons.mp h4 with rfl | h5
        · decide
        · refine no_cr_regionData hgood ?_ x h5
          intro y hy
          rw [hrr] at hy
          fin_cases hy <;> decide
  have hnorm : normNewlines ('<' :: ("x-root".data ++ '>' :: REG)) =
      '<' :: ("x-root".data ++ '>' :: REG) :=
    normNewlines_id (fun hm => hcrW '\r' hm rfl)
  have hdw : ('<' :: ("x-root".data ++ '>' :: REG)).dropWhile isXmlWs =
      '<' :: ("x-root".data ++ '>' :: REG) :=
    List.dropWhile_cons_of_neg (by decide)
  have hlenREG := regionData_length_ge n ('<' :: '/' :: rr) blocks
  rw [← hREG] at hlenREG
  have hlr : ('<' :: '/' :: rr).length = 9 := by simp [hrr]
  rw [hlr] at hlenREG
  set F : Nat := 2 * ('<' :: ("x-root".data ++ '>' :: REG)).length + 2 with hF
  obtain ⟨g, hg⟩ : ∃ g, F = g + 1 := ⟨_, rfl⟩
  have hgbound : 3 * blocks.length + 5 ≤ g := by
    have h1 : ('<' :: ("x-root".data ++ '>' :: REG)).length = 8 + REG.length := by
      simp only [List.length_cons, List.length_append,
        show ("x-root".data).length = 6 from rfl]
      omega
    omega
  have hname : scanName ("x-root".data ++ '>' :: REG) =
      .ok ("x-root", '>' :: REG) :=
    scanName_rt (by decide) (by simp [headNot]; decide)
  have hscan : scanAttrs (('>' :: REG).length + 1) ('>' :: REG) =
      .ok ([], '>' :: REG) := by
    have := scanAttrs_rt [] REG (('>' :: REG).length + 1)
      (by simp only [List.length_nil, List.length_cons]; omega)
      (by intro a ha; simp at ha)
    simpa using this
  have hkids : parseChildren g REG = .ok (wrapKidsF n blocks, '<' :: '/' :: rr) :=
    parseChildren_region blocks n rr g hgood hgbound
  have hclosename : scanName rr = .ok ("x-root", ['>']) := by
    rw [hrr]
    exact scanName_rt (by decide) (by simp only [headNot]; decide)
  have hstep : parseElement (g + 1) ('<' :: ("x-root".data ++ '>' :: REG)) =
      (match scanName ("x-root".data ++ '>' :: REG) with
       | .ok (tag, r1) =>
         (match scanAttrs (r1.length + 1) r1 with
          | .ok (attrs, r2) =>
            if (attrs.map XmlAttr.name).Nodup then
              match r2 with
              | '/' :: '>' :: r3 => .ok (.elem tag attrs .nil, r3)
              | '>' :: r3 =>
                (match parseChildren g r3 with
                 | .ok (kids, r4) =>
                   (match r4 with
                    | '<' :: '/' :: r5 =>
                      (match scanName r5 with
                       | .ok (ctag, r6) =>
                         if ctag = tag then
                           match r6.dropWhile isXmlWs with
                           | '>' :: r7 => .ok (.elem tag attrs kids, r7)
                           | _ => .error "malformed closing tag"
                         else .error ("mismatched closing tag " ++ ctag ++ " for " ++ tag)
                       | .error e => .error e)
                    | _ => .error "expected a closing tag")
                 | .error e => .error e)
              | _ => .error "malformed start tag"
            else .error "duplicate attribute name"
          | .error e => .error e)
       | .error e => .error e) := rfl
  have hpe : parseElement F ('<' :: ("x-root".data ++ '>' :: REG)) =
      .ok (.elem "x-root" [] (wrapKidsF n blocks), []) := by
    rw [hg, hstep, hname]
    simp only [hscan, hkids, hclosename]
    rw [if_pos (by simp : (List.map XmlAttr.name ([] : List XmlAttr)).Nodup)]
    rfl
  simp only [domParse, data_mk, hnorm, hdw, ← hF, hpe]
  rfl

/-! ## Round-trip development: assembly -/

theorem buildXml_data_clamped (blocks : List Block) (k : Int) (h0 : 0 ≤ k)
    (h8 : k ≤ 8) (hsingle : ∀ b ∈ blocks, '\n' ∉ b.content.data) :
    (Home.buildXml blocks { indent := some k }).data = docData k.toNat blocks := by
  have hcl : (max 0 (min 8 ((some k : Option Int).getD 2))).toNat = k.toNat := by
    simp only [Option.getD_some]
    omega
  show jsJoinData '\n' ((blocks.flatMap (fun b =>
    renderBlockLines escapeXml
      ((max 0 (min 8 ((some k : Option Int).getD 2))).toNat) b 0)).map
        String.data) = _
  rw [hcl]
  exact buildXml_data blocks k.toNat hsingle

theorem buildXml_eq_doc (blocks : List Block) (k : Int) (h0 : 0 ≤ k)
    (h8 : k ≤ 8) (hsingle : ∀ b ∈ blocks, '\n' ∉ b.content.data) :
    Home.buildXml blocks { indent := some k } = ⟨docData k.toNat blocks⟩ := by
  have := congrArg String.mk (buildXml_data_clamped blocks k h0 h8 hsingle)
  rw [mk_data] at this
  exact this

theorem wrapFallback_data_eq (s : String) :
    (wrapFallback s).data = "<x-root>\n".data ++ s.data ++ "\n</x-root>".data := by
  simp [wrapFallback, String.data_append]

theorem wrapFallback_region (blocks : List Block) (n : Nat) (hne : blocks ≠ []) :
    wrapFallback ⟨docData n blocks⟩ =
      ⟨'<' :: ("x-root".data ++ '>' ::
        regionData n ('<' :: '/' :: ("x-root".data ++ ['>'])) blocks)⟩ := by
  have hd : (wrapFallback ⟨docData n blocks⟩).data =
      '<' :: ("x-root".data ++ '>' ::
        regionData n ('<' :: '/' :: ("x-root".data ++ ['>'])) blocks) := by
    rw [wrapFallback_data_eq, data_mk, regionData_eq n _ blocks hne,
      show "<x-root>\n".data = ['<', 'x', '-', 'r', 'o', 'o', 't', '>', '\n'] from rfl,
      show "\n</x-root>".data =
        ['\n', '<', '/', 'x', '-', 'r', 'o', 'o', 't', '>'] from rfl,
      show "x-root".data = ['x', '-', 'r', 'o', 'o', 't'] from rfl]
    simp
  have := congrArg String.mk hd
  rw [mk_data] at this
  exact this

theorem stage1_single (b : Block) (n : Nat) (hgb : GoodBlock b) :
    parseStage1 ⟨blockData n b⟩ = .ok (elemOf n b, false) := by
  have hdom := domParse_doc_single n b hgb
  have hfind := findElem_elemOf (n := n) hgb.2.1
  have hperr2 : perrOf (Except.ok (elemOf n b)) = false := by
    rw [perrOf, hfind]
    rfl
  simp only [parseStage1, hdom, hperr2, Bool.false_eq_true, if_false, hfind]

theorem stage1_multi (b1 b2 : Block) (bs : List Block) (n : Nat)
    (hgood : ∀ b ∈ b1 :: b2 :: bs, GoodBlock b) :
    parseStage1 ⟨docData n (b1 :: b2 :: bs)⟩ =
      .ok (.elem "x-root" [] (wrapKidsF n (b1 :: b2 :: bs)), true) := by
  have hdom := domParse_doc_multi n b1 b2 bs hgood
  have hperr : perrOf (Except.error
      (α := XNode) "junk after document element") = true := rfl
  have hwrap : domParse (wrapFallback ⟨docData n (b1 :: b2 :: bs)⟩) =
      .ok (.elem "x-root" [] (wrapKidsF n (b1 :: b2 :: bs))) := by
    rw [wrapFallback_region _ n (by simp)]
    exact domParse_wrapped n (b1 :: b2 :: bs) hgood (by simp)
  have hfind : findElemF "parsererror" (wrapKidsF n (b1 :: b2 :: bs)) = none :=
    findElemF_wrapKids (fun b hb => (hgood b hb).2.1)
  have hfind2 : findElem "parsererror"
      (.elem "x-root" [] (wrapKidsF n (b1 :: b2 :: bs))) = none := by
    rw [findElem, if_neg (by decide), hfind]
  simp only [parseStage1, hdom, hperr, if_true, hwrap, hfind2]

theorem blocksStage2_single (b : Block) (n : Nat) :
    blocksStage2 (elemOf n b) false =
      { root := none, blocks := [mkParsedBlock b],
        wrapped := some false, error := none } := by
  have hone : Block.mk (tagOf (elemOf n b)) (jsTrim (textContent (elemOf n b)))
      (attrsOf (elemOf n b)) = mkParsedBlock b := by
    rw [textContent_elemOf, jsTrim_parsedInner]
    rfl
  simp only [blocksStage2, elemChildren_elemOf, List.isEmpty_nil, Bool.not_true,
    Bool.false_eq_true, if_false, List.map_cons, List.map_nil, hone]
  rfl

theorem map_elemOf_parsed (n : Nat) (blocks : List Block) :
    (blocks.map (elemOf n)).map (fun el =>
      Block.mk (tagOf el) (jsTrim (textContent el)) (attrsOf el)) =
      blocks.map mkParsedBlock := by
  rw [List.map_map]
  apply List.map_congr_left
  intro b _
  show Block.mk (tagOf (elemOf n b)) (jsTrim (textContent (elemOf n b)))
      (attrsOf (elemOf n b)) = mkParsedBlock b
  rw [textContent_elemOf, jsTrim_parsedInner]
  rfl

theorem blocksStage2_multi (b1 b2 : Block) (bs : List Block) (n : Nat) :
    blocksStage2 (.elem "x-root" [] (wrapKidsF n (b1 :: b2 :: bs))) true =
      { root := none, blocks := (b1 :: b2 :: bs).map mkParsedBlock,
        wrapped := some true, error := none } := by
  have hch : elemChildren (.elem "x-root" [] (wrapKidsF n (b1 :: b2 :: bs))) =
      (b1 :: b2 :: bs).map (elemOf n) := by
    show (wrapKidsF n (b1 :: b2 :: bs)).toList.filter isElem = _
    exact wrapKids_elems n (b1 :: b2 :: bs)
  have hcond : (!((b1 :: b2 :: bs).map (elemOf n)).isEmpty) = true := by simp
  have hblocks := map_elemOf_parsed n (b1 :: b2 :: bs)
  simp only [blocksStage2, hch]
  rw [if_pos hcond, if_neg (by simp), hblocks]

instance (a : XmlAttr) : Decidable (GoodAttr a) := by
  unfold GoodAttr; infer_instance

instance (b : Block) : Decidable (GoodBlock b) := by
  unfold GoodBlock; infer_instance

/-- C2 (amended) — Round-trip: for any NON-EMPTY block list in which every
tag is a valid XML name other than the parser-error marker `parsererror`,
every content is a single line of XML text characters, every attribute
either has a name that trims to empty (it is dropped) or is well formed
(valid XML name, value without control characters), and the emitted
attribute names of each block are distinct, and for every `indentWidth`
`k` in `[0, 8]`: `parse(serialize(blocks, {indentWidth: k}))` succeeds and
its blocks reproduce the same tags, the same kept attribute name/value
pairs in the same order (empty-name attributes dropped), and the trimmed
content of each block. -/
theorem serialize_parse_round_trip (blocks : List Block) (k : Int)
    (h0 : 0 ≤ k) (h8 : k ≤ 8) (hne : blocks ≠ [])
    (hgood : ∀ b ∈ blocks, GoodBlock b) :
    (parseXmlToBlocks (Home.buildXml blocks { indent := some k })).blocks =
      blocks.map mkParsedBlock ∧
    (parseXmlToBlocks (Home.buildXml blocks { indent := some k })).error =
      none := by
  have hsingleline : ∀ b ∈ blocks, '\n' ∉ b.content.data :=
    fun b hb => goodContent_ne_nl (hgood b hb).2.2.1
  have hstr := buildXml_eq_doc blocks k h0 h8 hsingleline
  cases blocks with
  | nil => exact absurd rfl hne
  | cons b rest =>
    cases rest with
    | nil =>
      rw [hstr]
      have hs1 : parseStage1 ⟨docData k.toNat [b]⟩ =
          .ok (elemOf k.toNat b, false) :=
        stage1_single b k.toNat (hgood b (by simp))
      simp only [parseXmlToBlocks, hs1, blocksStage2_single, List.map]
      exact ⟨trivial, trivial⟩
    | cons b2 bs =>
      rw [hstr]
      have hs1 := stage1_multi b b2 bs k.toNat hgood
      simp only [parseXmlToBlocks, hs1, blocksStage2_multi]
      exact ⟨trivial, trivial⟩

/-- C2 counterexample — the round-trip claim as frozen is false on the
code: the empty block list (which satisfies all of the claim's hypotheses
vacuously) serializes to the empty string, whose parse yields one synthetic
`x-root` block instead of no blocks; and a block with multi-line content
(allowed by the claim) comes back with the inner indentation of
`indentWidth 2` embedded in its content. -/
theorem serialize_parse_round_trip_cex :
    (parseXmlToBlocks (Home.buildXml [] { indent := some 2 })).blocks ≠
      ([] : List Block).map mkParsedBlock ∧
    (parseXmlToBlocks (Home.buildXml
        [{ tag := "a", content := "x\ny", attrs := [] }]
        { indent := some 2 })).blocks ≠
      [({ tag := "a", content := "x\ny", attrs := [] } : Block)].map
        mkParsedBlock := by
  constructor <;> decide

/-- C2 witness: the amended round trip instantiated at a concrete
two-block list with `indentWidth 2`, every hypothesis discharged by
evaluation. -/
theorem serialize_parse_round_trip_witness :
    ((0 : Int) ≤ 2 ∧ (2 : Int) ≤ 8) ∧
    ([({ tag := "system", content := "Be terse.", attrs := [] } : Block),
      { tag := "input", content := "{q}",
        attrs := [{ name := "format", value := "text" }] }] ≠ []) ∧
    (∀ b ∈ [({ tag := "system", content := "Be terse.", attrs := [] } : Block),
      { tag := "input", content := "{q}",
        attrs := [{ name := "format", value := "text" }] }], GoodBlock b) ∧
    ((parseXmlToBlocks (Home.buildXml
        [({ tag := "system", content := "Be terse.", attrs := [] } : Block),
         { tag := "input", content := "{q}",
           attrs := [{ name := "format", value := "text" }] }]
        { indent := some 2 })).blocks =
      [({ tag := "system", content := "Be terse.", attrs := [] } : Block),
       { tag := "input", content := "{q}",
         attrs := [{ name := "format", value := "text" }] }].map mkParsedBlock ∧
     (parseXmlToBlocks (Home.buildXml
        [({ tag := "system", content := "Be terse.", attrs := [] } : Block),
         { tag := "input", content := "{q}",
           attrs := [{ name := "format", value := "text" }] }]
        { indent := some 2 })).error = none) :=
  ⟨⟨by decide, by decide⟩, by decide, by decide,
    serialize_parse_round_trip _ 2 (by decide) (by decide) (by decide)
      (by decide)⟩
